import Mathlib

/-!
# Availabilities: a shallow embedding of `src/getAvailabilities.js`

Conventions of the embedding.

* A timestamp (`starts_at`, `ends_at`, the `date` argument) is an `Int`: milliseconds
  since the epoch, read as naive local time (no time zone, no daylight saving).
* `moment(x).format('YYYY-MM-DD')` is the calendar day number `x / 86400000` (floor
  division); the day number stands for the date string, both name the same calendar day.
  `moment(a).diff(b, 'days')` on two such dates is the difference of the day numbers.
* `moment(x).format('H:mm')` is the string made of the hour without padding, a colon and
  the minute on two digits.
* A time value is valid when it is at most 8.64e15 ms away from the epoch; formatting an
  invalid one gives the text `Invalid date`, the `none` of an `Option`. The rows of the
  table hold valid dates.
* A JavaScript `Map` is an insertion-ordered association list with unique keys.
* An exception (`TypeError` on reading a property of `undefined`) is the outer `none`
  of an `Option`.
-/

namespace Availabilities

/-! ## JavaScript `Map` -/

/-- Insertion-ordered association list standing for a JavaScript `Map`. -/
abbrev JsMap (κ : Type) (β : Type) := List (κ × β)

namespace JsMap

variable {κ β : Type} [DecidableEq κ]

/-- The lookup `Map.prototype.get`: the value stored under the key, if any. -/
def get : JsMap κ β → κ → Option β
  | [], _ => none
  | (k', v') :: rest, k => if k' = k then some v' else get rest k

/-- The test `Map.prototype.has`. -/
def has (m : JsMap κ β) (k : κ) : Bool := (get m k).isSome

/-- The update `Map.prototype.set`: an existing key keeps its position and takes the new
value, a new key is appended. -/
def set : JsMap κ β → κ → β → JsMap κ β
  | [], k, v => [(k, v)]
  | (k', v') :: rest, k, v => if k' = k then (k, v) :: rest else (k', v') :: set rest k v

/-- The values in insertion order, `Array.from(m.values())`. -/
def values (m : JsMap κ β) : List β := m.map Prod.snd

/-- The keys in insertion order. -/
def keys (m : JsMap κ β) : List κ := m.map Prod.fst

end JsMap

/-! ## Time and formatting -/

/-- Calendar day number of a timestamp: `moment(ts).format('YYYY-MM-DD')`. -/
def formatYMD (ts : Int) : Int := ts / 86400000

/-- Whether a time value is in the range of a JavaScript `Date`, at most 8.64e15 ms away
from the epoch. Beyond it a `Date`, and the `moment` made from it, is invalid. -/
def validTime (ts : Int) : Bool :=
  decide (-8640000000000000 ≤ ts ∧ ts ≤ 8640000000000000)

/-- The key `moment(date).add(i, "days").format('YYYY-MM-DD')` of the `i`-th requested day:
the day number when `date` and `date` plus `i` days are valid times, and `none`, standing
for the text `Invalid date`, otherwise. -/
def tempDateOf (date i : Int) : Option Int :=
  if validTime date && validTime (date + i * 86400000) then
    some (formatYMD (date + i * 86400000))
  else none

/-- Hour of day of a timestamp, `0 .. 23`. -/
def hourOf (ts : Int) : Nat := ((ts / 3600000) % 24).toNat

/-- Minute of the hour of a timestamp, `0 .. 59`. -/
def minuteOf (ts : Int) : Nat := ((ts / 60000) % 60).toNat

/-- Decimal digit character of a number below ten. -/
def digit (n : Nat) : Char := Char.ofNat (48 + n)

/-- The text `H:mm` of an hour and a minute: hour unpadded, minute on two digits. -/
def hmm (h m : Nat) : String :=
  String.mk (if h < 10 then [digit h, ':', digit (m / 10), digit (m % 10)]
    else [digit (h / 10), digit (h % 10), ':', digit (m / 10), digit (m % 10)])

/-- Slot label of a timestamp: `moment(ts).format("H:mm")`. -/
def formatHmm (ts : Int) : String := hmm (hourOf ts) (minuteOf ts)

/-! ## Events -/

/-- A row of the `events` table, with the four selected columns. `weekly_recurring` is
`some 1` for a recurring row, `some 0` or `none` (SQL null) otherwise. -/
structure Event where
  kind : String
  starts_at : Int
  ends_at : Int
  weekly_recurring : Option Int
  deriving DecidableEq, Repr

/-- One entry of the result: the day `new Date(tempDate)` and its free slots. The day is
`none` for the invalid date made from the text `Invalid date`. -/
structure Availability where
  date : Option Int
  slots : List String
  deriving DecidableEq, Repr

/-- The two outputs of `setRecurringEvents`. -/
structure EventData where
  recurringEvents : List Int
  eventSchedule : JsMap Int Event
  deriving DecidableEq, Repr

/-- The rows the query of `getAvailabilities` selects from a table:
`where weekly_recurring = true or ends_at > +date`. -/
def fetchEvents (table : List Event) (date : Int) : List Event :=
  table.filter (fun e => decide (e.weekly_recurring = some 1) || decide (e.ends_at > date))

/-- Body of the loop of `setRecurringEvents` for one event. -/
def setRecurringEventsStep (acc : EventData) (event : Event) : EventData :=
  let recurringEvents :=
    if event.kind = "opening" ∧ event.weekly_recurring = some 1 then
      acc.recurringEvents ++ [formatYMD event.starts_at]
    else acc.recurringEvents
  let date := formatYMD event.starts_at
  { recurringEvents := recurringEvents, eventSchedule := JsMap.set acc.eventSchedule date event }

/-- The function `setRecurringEvents`: the anchor dates of the weekly recurring openings,
in input order, and the map from calendar day to the event starting that day. -/
def setRecurringEvents (events : List Event) : EventData :=
  events.foldl setRecurringEventsStep { recurringEvents := [], eventSchedule := [] }

/-- Body of the `forEach` of `getRecurringEvent` for one anchor date. The outer `none` is
the `TypeError` of `e.kind` when `eventSchedule.get(eventDate)` is `undefined`; the inner
option is the variable `recurringEvent`, `none` standing for the empty object. For
`diff >= 0` the remainder `diff % 7` of JavaScript is the one of `Int`. -/
def getRecurringEventStep (inputDate : Int) (eventSchedule : JsMap Int Event)
    (recurringEvent : Option Event) (eventDate : Int) : Option (Option Event) :=
  let diff := inputDate - eventDate
  if diff ≥ 0 ∧ diff % 7 = 0 then
    match JsMap.get eventSchedule eventDate with
    | none => none
    | some e => if e.kind = "opening" then some (some e) else some recurringEvent
  else some recurringEvent

/-- The `forEach` of `getRecurringEvent` over the anchor dates. -/
def getRecurringEventLoop (inputDate : Int) (eventSchedule : JsMap Int Event) :
    List Int → Option Event → Option (Option Event)
  | [], recurringEvent => some recurringEvent
  | eventDate :: rest, recurringEvent =>
    match getRecurringEventStep inputDate eventSchedule recurringEvent eventDate with
    | none => none
    | some r => getRecurringEventLoop inputDate eventSchedule rest r

/-- The function `getRecurringEvent`. Outer `none`: an exception was thrown. Inner `none`:
the empty object `new Object()` was returned. -/
def getRecurringEvent (inputDate : Int) (recurringEvents : List Int)
    (eventSchedule : JsMap Int Event) : Option (Option Event) :=
  match JsMap.get eventSchedule inputDate with
  | some ev =>
    if ev.kind = "opening" then some (some ev)
    else getRecurringEventLoop inputDate eventSchedule recurringEvents none
  | none => getRecurringEventLoop inputDate eventSchedule recurringEvents none

/-- The first loop of `getAvailableSlots`: from `date`, push the label and advance thirty
minutes while `date` is before `ends_at`. The fuel bounds the number of iterations. -/
def slotLoop : Nat → Int → Int → List String
  | 0, _, _ => []
  | fuel + 1, date, ends_at =>
    if date < ends_at then formatHmm date :: slotLoop fuel (date + 1800000) ends_at else []

/-- Fuel for a loop from `starts_at` to `ends_at`: each iteration advances the date by
1800000 ms, so the distance in milliseconds is more than enough. -/
def windowFuel (starts_at ends_at : Int) : Nat := (ends_at - starts_at).toNat

/-- The baseline slots of a window: the first loop of `getAvailableSlots`. -/
def windowSlots (starts_at ends_at : Int) : List String :=
  slotLoop (windowFuel starts_at ends_at) starts_at ends_at

/-- The second loop of `getAvailableSlots`, over the window of the event of the day. The
state is the pair `(filteredSlots, slots)`. -/
def overlayLoop (event : Event) : Nat → Int → List String × List String →
    List String × List String
  | 0, _, st => st
  | fuel + 1, date, (filteredSlots, slots) =>
    if date < event.ends_at then
      let formattedDate := formatHmm date
      if event.kind = "opening" then
        overlayLoop event fuel (date + 1800000) (filteredSlots ++ [formattedDate], slots)
      else if event.kind = "appointment" then
        let filtered := slots.filter (fun slot => slot ≠ formattedDate)
        overlayLoop event fuel (date + 1800000) (filtered, filtered)
      else
        overlayLoop event fuel (date + 1800000) (filteredSlots, slots)
    else (filteredSlots, slots)

/-- The branch `event !== undefined` of `getAvailableSlots`: run the second loop from
`filteredSlots = []` and the current `slots`, and return `filteredSlots`. -/
def overlay (event : Event) (slots : List String) : List String :=
  (overlayLoop event (windowFuel event.starts_at event.ends_at) event.starts_at ([], slots)).1

/-- The function `getAvailableSlots`. -/
def getAvailableSlots (inputDate : Int) (eventSchedule : JsMap Int Event)
    (recurringEvent : Event) : List String :=
  let slots := windowSlots recurringEvent.starts_at recurringEvent.ends_at
  match JsMap.get eventSchedule inputDate with
  | some event => overlay event slots
  | none => slots

/-- The loop of `getAvailabilities` over `i`, with the map `availabilities` as state. The
fuel bounds the number of iterations; `none` is an exception of `getRecurringEvent`. When
`tempDate` is the text `Invalid date`, the index has no entry under it (event rows hold
valid dates) and every `diff` of `getRecurringEvent` is `NaN`, which fails `diff>=0`: the
empty object comes back and the entry with no slot is stored under that one key. -/
def availabilitiesLoop (eventData : EventData) (date numberOfDays : Int) :
    Nat → Int → JsMap (Option Int) Availability → Option (JsMap (Option Int) Availability)
  | 0, _, availabilities => some availabilities
  | fuel + 1, i, availabilities =>
    if i < numberOfDays then
      match tempDateOf date i with
      | none =>
        availabilitiesLoop eventData date numberOfDays fuel (i + 1)
          (JsMap.set availabilities none { date := none, slots := [] })
      | some tempDate =>
        match getRecurringEvent tempDate eventData.recurringEvents eventData.eventSchedule with
        | none => none
        | some (some recurringEvent) =>
          availabilitiesLoop eventData date numberOfDays fuel (i + 1)
            (JsMap.set availabilities (some tempDate)
              { date := some tempDate,
                slots := getAvailableSlots tempDate eventData.eventSchedule recurringEvent })
        | some none =>
          availabilitiesLoop eventData date numberOfDays fuel (i + 1)
            (JsMap.set availabilities (some tempDate) { date := some tempDate, slots := [] })
    else some availabilities

/-- The function `getAvailabilities`, after the query has returned `events`. The result
is `none` when an exception is thrown. -/
def getAvailabilities (events : List Event) (date : Int) (numberOfDays : Int) :
    Option (List Availability) :=
  let eventData := setRecurringEvents events
  (availabilitiesLoop eventData date numberOfDays numberOfDays.toNat 0 []).map JsMap.values

/-! ## Specification-side definitions -/

/-- Number of thirty-minute steps of a window: the ceiling of its length over thirty
minutes, zero for an empty or reversed window. -/
def slotCount (starts_at ends_at : Int) : Nat :=
  if starts_at < ends_at then ((ends_at - starts_at + 1799999) / 1800000).toNat else 0

/-- The thirty-minute grid of a window: the labels of `starts_at + 30 k` minutes for
`k = 0, ..., slotCount - 1`. -/
def grid (starts_at ends_at : Int) : List String :=
  (List.range (slotCount starts_at ends_at)).map
    (fun k : Nat => formatHmm (starts_at + 1800000 * (k : Int)))

/-- The opening an anchor date contributes to a target date: the event stored at the
anchor when the target is a whole number of weeks after it and that event is an opening. -/
def candidateAt (inputDate : Int) (eventSchedule : JsMap Int Event) (a : Int) : Option Event :=
  if inputDate - a ≥ 0 ∧ (inputDate - a) % 7 = 0 then
    (JsMap.get eventSchedule a).filter (fun e => decide (e.kind = "opening"))
  else none

/-- The event of the last candidate anchor, in the order of the anchor list. -/
def lastCandidate (inputDate : Int) (eventSchedule : JsMap Int Event)
    (recurringEvents : List Int) : Option Event :=
  (recurringEvents.filterMap (candidateAt inputDate eventSchedule)).getLast?

/-- The governing opening of a day: the opening stored at the day itself, else the last
candidate of the anchor list. -/
def resolve (inputDate : Int) (recurringEvents : List Int)
    (eventSchedule : JsMap Int Event) : Option Event :=
  match JsMap.get eventSchedule inputDate with
  | some ev =>
    if ev.kind = "opening" then some ev
    else lastCandidate inputDate eventSchedule recurringEvents
  | none => lastCandidate inputDate eventSchedule recurringEvents

/-- The slots of a day, from the governing opening when there is one. -/
def daySlots (eventData : EventData) (d : Int) : List String :=
  match resolve d eventData.recurringEvents eventData.eventSchedule with
  | some recurringEvent => getAvailableSlots d eventData.eventSchedule recurringEvent
  | none => []

/-- Number of requested days, counted from the first, whose key is a valid date: all of
them unless the start date is invalid or the days run past the range of `Date`. -/
def validDays (date numberOfDays : Int) : Nat :=
  if validTime date then
    (min numberOfDays ((8640000000000000 - date) / 86400000 + 1)).toNat
  else 0

/-- The availability of a valid day. -/
def dayAvailability (eventData : EventData) (d : Int) : Availability :=
  { date := some d, slots := daySlots eventData d }

/-- The availability stored under the text `Invalid date`. -/
def invalidAvailability : Availability := { date := none, slots := [] }

/-- An event kind the code recognises: opening or appointment. -/
def knownKind (e : Event) : Bool :=
  decide (e.kind = "opening") || decide (e.kind = "appointment")

/-- The label of a minute of the day, `0 .. 1439`. -/
def labelOfMinute (m : Nat) : String := hmm (m / 60) (m % 60)

/-- A slot list is in strictly ascending time-of-day order: it is the list of labels of a
strictly increasing list of minutes of the day. -/
def AscendingTimeOfDay (slots : List String) : Prop :=
  ∃ ms : List Nat, ms.Pairwise (fun a b => a < b) ∧ (∀ m ∈ ms, m < 1440)
    ∧ slots = ms.map labelOfMinute

/-- Minute of the day of a timestamp, `0 .. 1439`. -/
def minuteOfDay (ts : Int) : Int := (ts / 60000) % 1440

/-! ## Sample data -/

/-- Midnight of Monday 2014-08-04, day number 16286. -/
def monday : Int := 16286 * 86400000

/-- A weekly recurring opening, Monday 9:00 to 11:00. -/
def weeklyOpening : Event :=
  { kind := "opening", starts_at := monday + 32400000, ends_at := monday + 39600000,
    weekly_recurring := some 1 }

/-- An appointment on the following Monday, 10:00 to 10:30. -/
def nextAppointment : Event :=
  { kind := "appointment", starts_at := monday + 604800000 + 36000000,
    ends_at := monday + 604800000 + 37800000, weekly_recurring := none }

/-- A one-off opening on the following Monday, 13:00 to 14:00. -/
def nextOpening : Event :=
  { kind := "opening", starts_at := monday + 604800000 + 46800000,
    ends_at := monday + 604800000 + 50400000, weekly_recurring := some 0 }

/-- An appointment on the first Monday itself, 10:00 to 10:30. -/
def sameDayAppointment : Event :=
  { kind := "appointment", starts_at := monday + 36000000, ends_at := monday + 37800000,
    weekly_recurring := none }

/-- A second weekly recurring opening, on the following Monday, 14:00 to 15:00. -/
def laterOpening : Event :=
  { kind := "opening", starts_at := monday + 604800000 + 50400000,
    ends_at := monday + 604800000 + 54000000, weekly_recurring := some 1 }

/-- An event of unknown kind on the following Monday, 10:00 to 10:30. -/
def holiday : Event :=
  { kind := "holiday", starts_at := monday + 604800000 + 36000000,
    ends_at := monday + 604800000 + 37800000, weekly_recurring := none }

/-- A one-off opening across midnight, Monday 23:00 to Tuesday 1:00. -/
def nightOpening : Event :=
  { kind := "opening", starts_at := monday + 82800000, ends_at := monday + 90000000,
    weekly_recurring := some 0 }

/-- A one-off opening on the first Monday itself, 14:00 to 15:00, listed after the weekly
opening of that day. -/
def oneOffOpening : Event :=
  { kind := "opening", starts_at := monday + 50400000, ends_at := monday + 54000000,
    weekly_recurring := some 0 }

/-- An appointment with an empty window on the following Monday, 10:00 to 10:00. -/
def emptyAppointment : Event :=
  { kind := "appointment", starts_at := monday + 604800000 + 36000000,
    ends_at := monday + 604800000 + 36000000, weekly_recurring := none }

/-- An appointment on the following Monday off the half-hour grid, 10:15 to 10:45. -/
def offGridAppointment : Event :=
  { kind := "appointment", starts_at := monday + 604800000 + 36900000,
    ends_at := monday + 604800000 + 38700000, weekly_recurring := none }

/-! ## Lemmas on `JsMap` -/

namespace JsMap

variable {κ β : Type} [DecidableEq κ]

theorem get_set (m : JsMap κ β) (k k' : κ) (v : β) :
    get (set m k v) k' = if k = k' then some v else get m k' := by
  induction m with
  | nil => simp [set, get]
  | cons p rest ih =>
    obtain ⟨a, b⟩ := p
    by_cases h : a = k
    · subst h
      by_cases h' : a = k' <;> simp [set, get, h']
    · by_cases h' : a = k'
      · subst h'
        have hk : ¬ k = a := fun e => h e.symm
        simp [set, get, h, hk]
      · simp [set, get, h, h', ih]

theorem set_fresh (m : JsMap κ β) (k : κ) (v : β) (h : k ∉ keys m) :
    set m k v = m ++ [(k, v)] := by
  induction m with
  | nil => simp [set]
  | cons p rest ih =>
    obtain ⟨a, b⟩ := p
    have h1 : ¬ a = k := by
      intro e
      apply h
      simp [keys, e]
    have h2 : k ∉ keys rest := by
      intro hm
      apply h
      simp only [keys, List.map_cons, List.mem_cons]
      exact Or.inr hm
    simp [set, h1, ih h2]

theorem get_eq_none_of_not_mem (m : JsMap κ β) (k : κ) (h : k ∉ keys m) : get m k = none := by
  induction m with
  | nil => simp [get]
  | cons p rest ih =>
    obtain ⟨a, b⟩ := p
    have h1 : ¬ a = k := by
      intro e
      apply h
      simp [keys, e]
    have h2 : k ∉ keys rest := by
      intro hm
      apply h
      simp only [keys, List.map_cons, List.mem_cons]
      exact Or.inr hm
    simp [get, h1, ih h2]

end JsMap

/-! ## The slot loop -/

theorem slotCount_of_not_lt (s e : Int) (h : ¬ s < e) : slotCount s e = 0 := by
  simp [slotCount, h]

theorem slotCount_step (s e : Int) (h : s < e) :
    slotCount s e = slotCount (s + 1800000) e + 1 := by
  unfold slotCount
  rw [if_pos h]
  split_ifs with h2 <;> omega

theorem slotCount_le_windowFuel (s e : Int) : slotCount s e ≤ windowFuel s e := by
  unfold slotCount windowFuel
  split_ifs with h <;> omega

theorem lt_slotCount_iff (s e : Int) (k : Nat) :
    k < slotCount s e ↔ s + 1800000 * (k : Int) < e := by
  unfold slotCount
  split_ifs with h <;> omega

theorem slotLoop_eq_grid (fuel : Nat) (s e : Int) (h : slotCount s e ≤ fuel) :
    slotLoop fuel s e = grid s e := by
  induction fuel generalizing s with
  | zero =>
    have h0 : slotCount s e = 0 := by omega
    simp [slotLoop, grid, h0]
  | succ n ih =>
    by_cases hlt : s < e
    · have hstep := slotCount_step s e hlt
      have hn : slotCount (s + 1800000) e ≤ n := by omega
      simp only [slotLoop, if_pos hlt, ih (s + 1800000) hn]
      unfold grid
      rw [hstep, List.range_succ_eq_map, List.map_cons, List.map_map]
      congr 1
      · simp
      · apply List.map_congr_left
        intro k _
        simp only [Function.comp, Nat.succ_eq_add_one]
        congr 1
        push_cast
        ring
    · simp [slotLoop, hlt, grid, slotCount_of_not_lt s e hlt]

theorem windowSlots_eq_grid (s e : Int) : windowSlots s e = grid s e :=
  slotLoop_eq_grid _ s e (slotCount_le_windowFuel s e)

theorem slotCount_eq_ceil (s e : Int) (h : s < e) :
    (slotCount s e : Int) = ⌈(((e - s : Int) : ℚ)) / 1800000⌉ := by
  symm
  rw [Int.ceil_eq_iff]
  have hc : ((slotCount s e : Int)) = (e - s + 1799999) / 1800000 := by
    unfold slotCount
    rw [if_pos h]
    omega
  have h1 : (slotCount s e : Int) * 1800000 < (e - s) + 1800000 := by omega
  have h2 : (e - s) ≤ (slotCount s e : Int) * 1800000 := by omega
  have h1q : ((slotCount s e : Int) : ℚ) * 1800000 < ((e - s : Int) : ℚ) + 1800000 := by
    exact_mod_cast h1
  have h2q : ((e - s : Int) : ℚ) ≤ ((slotCount s e : Int) : ℚ) * 1800000 := by
    exact_mod_cast h2
  constructor
  · rw [lt_div_iff₀ (by norm_num)]
    linarith
  · rw [div_le_iff₀ (by norm_num)]
    linarith

/-- C10: the slot expansion of a window gives, for every pair of bounds and whatever the
fuel beyond the number of steps, exactly the labels of `starts_at + 30 k` minutes for
`k < N`, where `N` is the ceiling of the window length over thirty minutes when the window
is not empty and zero otherwise; the steps emitted are exactly those strictly before
`ends_at`, so the slot at `ends_at` is never emitted. -/
theorem slot_expansion_exact (starts_at ends_at : Int) :
    ∃ N : Nat,
      (starts_at < ends_at →
        (N : Int) = ⌈(((ends_at - starts_at : Int) : ℚ)) / 1800000⌉) ∧
      (¬ starts_at < ends_at → N = 0) ∧
      windowSlots starts_at ends_at
        = (List.range N).map (fun k : Nat => formatHmm (starts_at + 1800000 * (k : Int))) ∧
      (∀ fuel : Nat, N ≤ fuel →
        slotLoop fuel starts_at ends_at = windowSlots starts_at ends_at) ∧
      (∀ k : Nat, k < N ↔ starts_at + 1800000 * (k : Int) < ends_at) := by
  refine ⟨slotCount starts_at ends_at, slotCount_eq_ceil starts_at ends_at,
    slotCount_of_not_lt starts_at ends_at, ?_, ?_, lt_slotCount_iff starts_at ends_at⟩
  · exact windowSlots_eq_grid starts_at ends_at
  · intro fuel hf
    rw [slotLoop_eq_grid fuel starts_at ends_at hf, windowSlots_eq_grid]

/-! ## The overlay loop -/

theorem grid_of_not_lt (s e : Int) (h : ¬ s < e) : grid s e = [] := by
  simp [grid, slotCount_of_not_lt s e h]

theorem grid_step (s e : Int) (h : s < e) :
    grid s e = formatHmm s :: grid (s + 1800000) e := by
  unfold grid
  rw [slotCount_step s e h, List.range_succ_eq_map, List.map_cons, List.map_map]
  congr 1
  · simp
  · apply List.map_congr_left
    intro k _
    simp only [Function.comp, Nat.succ_eq_add_one]
    congr 1
    push_cast
    ring

theorem overlayLoop_opening (event : Event) (hk : event.kind = "opening") (fuel : Nat)
    (date : Int) (filteredSlots slots : List String)
    (hf : slotCount date event.ends_at ≤ fuel) :
    overlayLoop event fuel date (filteredSlots, slots)
      = (filteredSlots ++ grid date event.ends_at, slots) := by
  induction fuel generalizing date filteredSlots with
  | zero =>
    have h0 : slotCount date event.ends_at = 0 := by omega
    simp [overlayLoop, grid, h0]
  | succ n ih =>
    by_cases hlt : date < event.ends_at
    · have hstep := slotCount_step date event.ends_at hlt
      have hn : slotCount (date + 1800000) event.ends_at ≤ n := by omega
      simp only [overlayLoop, if_pos hlt, if_pos hk]
      rw [ih (date + 1800000) _ hn, grid_step date event.ends_at hlt]
      simp
    · simp [overlayLoop, hlt, grid_of_not_lt date event.ends_at hlt]

theorem overlayLoop_appointment (event : Event) (hk : event.kind = "appointment")
    (fuel : Nat) (date : Int) (filteredSlots slots : List String)
    (hf : slotCount date event.ends_at ≤ fuel) :
    overlayLoop event fuel date (filteredSlots, slots)
      = if date < event.ends_at then
          (slots.filter (fun slot => decide (slot ∉ grid date event.ends_at)),
            slots.filter (fun slot => decide (slot ∉ grid date event.ends_at)))
        else (filteredSlots, slots) := by
  have hno : ¬ event.kind = "opening" := by
    rw [hk]
    decide
  induction fuel generalizing date filteredSlots slots with
  | zero =>
    have h0 : slotCount date event.ends_at = 0 := by omega
    have hlt : ¬ date < event.ends_at := by
      intro hlt
      have := slotCount_step date event.ends_at hlt
      omega
    simp [overlayLoop, hlt]
  | succ n ih =>
    by_cases hlt : date < event.ends_at
    · have hstep := slotCount_step date event.ends_at hlt
      have hn : slotCount (date + 1800000) event.ends_at ≤ n := by omega
      simp only [overlayLoop, if_pos hlt, if_neg hno, if_pos hk]
      rw [ih (date + 1800000) _ _ hn, grid_step date event.ends_at hlt]
      by_cases hlt2 : date + 1800000 < event.ends_at
      · simp only [if_pos hlt2, List.filter_filter]
        have hfe : (fun slot : String =>
            decide (slot ∉ grid (date + 1800000) event.ends_at)
              && decide (slot ≠ formatHmm date))
            = (fun slot : String =>
              decide (slot ∉ formatHmm date :: grid (date + 1800000) event.ends_at)) := by
          funext slot
          simp only [List.mem_cons, not_or, Bool.decide_and, Bool.and_comm]
        rw [hfe]
      · simp only [if_neg hlt2, grid_of_not_lt _ _ hlt2]
        have hfe : (fun slot : String => decide (slot ≠ formatHmm date))
            = (fun slot : String => decide (slot ∉ [formatHmm date])) := by
          funext slot
          simp
        rw [hfe]
    · simp [overlayLoop, hlt]

theorem overlayLoop_inert (event : Event) (h1 : ¬ event.kind = "opening")
    (h2 : ¬ event.kind = "appointment") (fuel : Nat) (date : Int)
    (st : List String × List String) :
    overlayLoop event fuel date st = st := by
  induction fuel generalizing date with
  | zero => simp [overlayLoop]
  | succ n ih =>
    obtain ⟨f, s⟩ := st
    by_cases hlt : date < event.ends_at
    · simp only [overlayLoop, if_pos hlt, if_neg h1, if_neg h2]
      exact ih _
    · simp [overlayLoop, hlt]

theorem overlay_opening (event : Event) (hk : event.kind = "opening") (slots : List String) :
    overlay event slots = grid event.starts_at event.ends_at := by
  unfold overlay
  rw [overlayLoop_opening event hk _ _ _ _ (slotCount_le_windowFuel _ _)]
  simp

theorem overlay_appointment (event : Event) (hk : event.kind = "appointment")
    (slots : List String) :
    overlay event slots
      = if event.starts_at < event.ends_at then
          slots.filter (fun slot => decide (slot ∉ grid event.starts_at event.ends_at))
        else [] := by
  unfold overlay
  rw [overlayLoop_appointment event hk _ _ _ _ (slotCount_le_windowFuel _ _)]
  split_ifs <;> rfl

theorem overlay_inert (event : Event) (h1 : ¬ event.kind = "opening")
    (h2 : ¬ event.kind = "appointment") (slots : List String) :
    overlay event slots = [] := by
  unfold overlay
  rw [overlayLoop_inert event h1 h2]

/-- C3: when the schedule index holds, at the target date, an appointment with a
non-empty window, `getAvailableSlots` returns the baseline slots of the governing opening
without those whose label is the label of a thirty-minute step of the appointment window,
the others in their original order. -/
theorem appointment_slots_removed (inputDate : Int) (eventSchedule : JsMap Int Event)
    (recurringEvent appointment : Event)
    (hget : JsMap.get eventSchedule inputDate = some appointment)
    (hkind : appointment.kind = "appointment")
    (hwin : appointment.starts_at < appointment.ends_at) :
    getAvailableSlots inputDate eventSchedule recurringEvent
      = (grid recurringEvent.starts_at recurringEvent.ends_at).filter
          (fun slot => decide (slot ∉ grid appointment.starts_at appointment.ends_at)) := by
  unfold getAvailableSlots
  simp only [hget]
  rw [overlay_appointment appointment hkind, if_pos hwin, windowSlots_eq_grid]

/-- Witness of C3: an opening 9:00-11:00 with an appointment 10:00-10:30 on the target
date leaves the slots 9:00, 9:30 and 10:30. -/
theorem appointment_slots_removed_witness :
    getAvailableSlots 16295
        [(16295, ⟨"appointment", 16295 * 86400000 + 36000000,
          16295 * 86400000 + 37800000, none⟩)]
        ⟨"opening", 16288 * 86400000 + 32400000, 16288 * 86400000 + 39600000, some 1⟩
      = ["9:00", "9:30", "10:30"] := by
  rw [appointment_slots_removed 16295
    [(16295, ⟨"appointment", 16295 * 86400000 + 36000000,
      16295 * 86400000 + 37800000, none⟩)]
    ⟨"opening", 16288 * 86400000 + 32400000, 16288 * 86400000 + 39600000, some 1⟩
    ⟨"appointment", 16295 * 86400000 + 36000000, 16295 * 86400000 + 37800000, none⟩
    (by decide) (by decide) (by decide)]
  decide

/-- C7: the appointment branch of `getAvailableSlots` is idempotent: run on its own
result with the same appointment, it returns that result. -/
theorem appointment_overlay_idempotent (appointment : Event) (slots : List String)
    (hkind : appointment.kind = "appointment") :
    overlay appointment (overlay appointment slots) = overlay appointment slots := by
  rw [overlay_appointment appointment hkind, overlay_appointment appointment hkind]
  split_ifs with h
  · rw [List.filter_filter]
    congr 1
    funext slot
    simp
  · rfl

/-- Witness of C7: an appointment 10:00-10:30 applied twice to four slots. -/
theorem appointment_overlay_idempotent_witness :
    overlay ⟨"appointment", 36000000, 37800000, none⟩
        (overlay ⟨"appointment", 36000000, 37800000, none⟩ ["9:00", "9:30", "10:00", "10:30"])
      = overlay ⟨"appointment", 36000000, 37800000, none⟩ ["9:00", "9:30", "10:00", "10:30"] :=
  appointment_overlay_idempotent ⟨"appointment", 36000000, 37800000, none⟩
    ["9:00", "9:30", "10:00", "10:30"] (by decide)

/-! ## The schedule index -/

theorem setRecurringEvents_concat (events : List Event) (event : Event) :
    setRecurringEvents (events ++ [event])
      = setRecurringEventsStep (setRecurringEvents events) event := by
  simp [setRecurringEvents, List.foldl_append]

theorem eventSchedule_get (events : List Event) (d : Int) :
    JsMap.get (setRecurringEvents events).eventSchedule d
      = (events.filter (fun e => decide (formatYMD e.starts_at = d))).getLast? := by
  induction events using List.reverseRecOn with
  | nil => simp [setRecurringEvents, JsMap.get]
  | append_singleton es e ih =>
    rw [setRecurringEvents_concat]
    simp only [setRecurringEventsStep, JsMap.get_set, List.filter_append]
    by_cases h : formatYMD e.starts_at = d
    · simp [h, List.filter_cons]
    · simp [h, List.filter_cons, ih]

theorem recurringEvents_eq (events : List Event) :
    (setRecurringEvents events).recurringEvents
      = (events.filter
          (fun e => decide (e.kind = "opening" ∧ e.weekly_recurring = some 1))).map
          (fun e => formatYMD e.starts_at) := by
  induction events using List.reverseRecOn with
  | nil => simp [setRecurringEvents]
  | append_singleton es e ih =>
    rw [setRecurringEvents_concat]
    simp only [setRecurringEventsStep, List.filter_append, List.map_append]
    by_cases h : e.kind = "opening" ∧ e.weekly_recurring = some 1
    · simp [h, List.filter_cons, ih]
    · simp [h, List.filter_cons, ih]

theorem eventSchedule_get_mem (events : List Event) (d : Int) (e : Event)
    (h : JsMap.get (setRecurringEvents events).eventSchedule d = some e) :
    e ∈ events ∧ formatYMD e.starts_at = d := by
  rw [eventSchedule_get] at h
  have hm := List.mem_of_getLast?_eq_some h
  simpa using hm

theorem eventSchedule_get_isSome (events : List Event) (e : Event) (he : e ∈ events) :
    ∃ e', JsMap.get (setRecurringEvents events).eventSchedule (formatYMD e.starts_at)
      = some e' := by
  rw [eventSchedule_get]
  have hne : events.filter (fun x => decide (formatYMD x.starts_at = formatYMD e.starts_at))
      ≠ [] := by
    intro hnil
    have hm : e ∈ events.filter
        (fun x => decide (formatYMD x.starts_at = formatYMD e.starts_at)) := by
      simp [he]
    rw [hnil] at hm
    simp at hm
  exact ⟨_, List.getLast?_eq_getLast _ hne⟩

theorem eventSchedule_get_none (events : List Event) (d : Int)
    (h : ∀ e ∈ events, formatYMD e.starts_at ≠ d) :
    JsMap.get (setRecurringEvents events).eventSchedule d = none := by
  rw [eventSchedule_get, List.getLast?_eq_none_iff, List.filter_eq_nil_iff]
  intro e he
  simpa using h e he

theorem mem_recurringEvents (events : List Event) (a : Int) :
    a ∈ (setRecurringEvents events).recurringEvents
      ↔ ∃ e ∈ events, e.kind = "opening" ∧ e.weekly_recurring = some 1
          ∧ formatYMD e.starts_at = a := by
  rw [recurringEvents_eq]
  simp only [List.mem_map, List.mem_filter, decide_eq_true_eq]
  constructor
  · rintro ⟨e, ⟨he, hk, hw⟩, hd⟩
    exact ⟨e, he, hk, hw, hd⟩
  · rintro ⟨e, he, hk, hw, hd⟩
    exact ⟨e, ⟨he, hk, hw⟩, hd⟩

theorem recurringEvents_have_entries (events : List Event) (a : Int)
    (h : a ∈ (setRecurringEvents events).recurringEvents) :
    ∃ e, JsMap.get (setRecurringEvents events).eventSchedule a = some e := by
  obtain ⟨e, he, _, _, hd⟩ := (mem_recurringEvents events a).mp h
  rw [← hd]
  exact eventSchedule_get_isSome events e he

/-! ## The recurrence resolver -/

theorem getRecurringEventStep_eq (inputDate : Int) (eventSchedule : JsMap Int Event)
    (r : Option Event) (a : Int) (h : ∃ e, JsMap.get eventSchedule a = some e) :
    getRecurringEventStep inputDate eventSchedule r a
      = some ((candidateAt inputDate eventSchedule a).or r) := by
  obtain ⟨e, he⟩ := h
  unfold getRecurringEventStep candidateAt
  by_cases hd : inputDate - a ≥ 0 ∧ (inputDate - a) % 7 = 0
  · simp only [if_pos hd, he]
    by_cases hk : e.kind = "opening"
    · simp [hk, Option.filter]
    · simp [hk, Option.filter]
  · simp only [if_neg hd, Option.none_or]

theorem getRecurringEventLoop_eq (inputDate : Int) (eventSchedule : JsMap Int Event)
    (recurringEvents : List Int) (r : Option Event)
    (h : ∀ a ∈ recurringEvents, ∃ e, JsMap.get eventSchedule a = some e) :
    getRecurringEventLoop inputDate eventSchedule recurringEvents r
      = some ((lastCandidate inputDate eventSchedule recurringEvents).or r) := by
  induction recurringEvents generalizing r with
  | nil => simp [getRecurringEventLoop, lastCandidate]
  | cons a rest ih =>
    have ha := h a (List.mem_cons_self a rest)
    have hrest : ∀ b ∈ rest, ∃ e, JsMap.get eventSchedule b = some e :=
      fun b hb => h b (List.mem_cons_of_mem a hb)
    simp only [getRecurringEventLoop, getRecurringEventStep_eq inputDate eventSchedule r a ha]
    rw [ih _ hrest]
    congr 1
    unfold lastCandidate
    cases hc : candidateAt inputDate eventSchedule a with
    | none => simp [List.filterMap_cons, hc]
    | some e =>
      rw [List.filterMap_cons_some hc, ← List.singleton_append, List.getLast?_append]
      simp [Option.or_assoc]

theorem getRecurringEvent_eq (inputDate : Int) (recurringEvents : List Int)
    (eventSchedule : JsMap Int Event)
    (h : ∀ a ∈ recurringEvents, ∃ e, JsMap.get eventSchedule a = some e) :
    getRecurringEvent inputDate recurringEvents eventSchedule
      = some (resolve inputDate recurringEvents eventSchedule) := by
  unfold getRecurringEvent resolve
  cases hg : JsMap.get eventSchedule inputDate with
  | none =>
    simp only [getRecurringEventLoop_eq inputDate eventSchedule recurringEvents none h,
      Option.or_none]
  | some ev =>
    by_cases hk : ev.kind = "opening"
    · simp only [if_pos hk]
    · simp only [if_neg hk,
        getRecurringEventLoop_eq inputDate eventSchedule recurringEvents none h, Option.or_none]

theorem getRecurringEvent_setRecurringEvents (events : List Event) (d : Int) :
    getRecurringEvent d (setRecurringEvents events).recurringEvents
        (setRecurringEvents events).eventSchedule
      = some (resolve d (setRecurringEvents events).recurringEvents
          (setRecurringEvents events).eventSchedule) :=
  getRecurringEvent_eq d _ _ (recurringEvents_have_entries events)

/-! ## The range builder -/

theorem formatYMD_add_days (date i : Int) :
    formatYMD (date + i * 86400000) = formatYMD date + i := by
  unfold formatYMD
  omega

theorem tempDateOf_eq_some (date i d : Int) :
    tempDateOf date i = some d
      ↔ (-8640000000000000 ≤ date ∧ date ≤ 8640000000000000)
        ∧ (-8640000000000000 ≤ date + i * 86400000 ∧ date + i * 86400000 ≤ 8640000000000000)
        ∧ d = formatYMD date + i := by
  unfold tempDateOf
  by_cases h : (validTime date && validTime (date + i * 86400000)) = true
  · rw [if_pos h, Option.some.injEq, formatYMD_add_days]
    simp only [validTime, Bool.and_eq_true, decide_eq_true_eq] at h
    constructor
    · intro hd
      exact ⟨h.1, h.2, hd.symm⟩
    · intro hd
      exact hd.2.2.symm
  · rw [if_neg h]
    simp only [validTime, Bool.and_eq_true, decide_eq_true_eq] at h
    constructor
    · intro hd
      exact Option.noConfusion hd
    · intro hd
      exact absurd ⟨hd.1, hd.2.1⟩ h

theorem tempDateOf_eq_none (date i : Int) :
    tempDateOf date i = none
      ↔ ¬ ((-8640000000000000 ≤ date ∧ date ≤ 8640000000000000)
        ∧ (-8640000000000000 ≤ date + i * 86400000
          ∧ date + i * 86400000 ≤ 8640000000000000)) := by
  constructor
  · intro h hv
    have := (tempDateOf_eq_some date i (formatYMD date + i)).mpr ⟨hv.1, hv.2, rfl⟩
    rw [h] at this
    exact Option.noConfusion this
  · intro h
    cases hc : tempDateOf date i with
    | none => rfl
    | some d =>
      have := (tempDateOf_eq_some date i d).mp hc
      exact absurd ⟨this.1, this.2.1⟩ h

theorem validDays_le (date numberOfDays : Int) :
    validDays date numberOfDays ≤ numberOfDays.toNat := by
  unfold validDays
  split_ifs <;> omega

theorem tempDateOf_of_lt_validDays (date numberOfDays i : Int) (h0 : 0 ≤ i)
    (h : i < (validDays date numberOfDays : Int)) :
    tempDateOf date i = some (formatYMD date + i) := by
  rw [tempDateOf_eq_some]
  unfold validDays at h
  by_cases hv : validTime date = true
  · rw [if_pos hv] at h
    simp only [validTime, decide_eq_true_eq] at hv
    refine ⟨hv, ⟨by omega, by omega⟩, rfl⟩
  · rw [if_neg hv] at h
    simp at h
    omega

theorem tempDateOf_of_ge_validDays (date numberOfDays i : Int)
    (h : (validDays date numberOfDays : Int) ≤ i) (hlt : i < numberOfDays) :
    tempDateOf date i = none := by
  rw [tempDateOf_eq_none]
  unfold validDays at h
  by_cases hv : validTime date = true
  · rw [if_pos hv] at h
    simp only [validTime, decide_eq_true_eq] at hv
    omega
  · simp only [validTime, decide_eq_true_eq] at hv
    intro hc
    exact hv hc.1

theorem set_set {κ β : Type} [DecidableEq κ] (m : JsMap κ β) (k : κ) (v : β) :
    JsMap.set (JsMap.set m k v) k v = JsMap.set m k v := by
  induction m with
  | nil => simp [JsMap.set]
  | cons p rest ih =>
    obtain ⟨a, b⟩ := p
    by_cases h : a = k
    · simp [JsMap.set, h]
    · simp [JsMap.set, h, ih]

theorem availabilitiesLoop_done (eventData : EventData) (date numberOfDays : Int)
    (fuel : Nat) (i : Int) (availabilities : JsMap (Option Int) Availability)
    (h : ¬ i < numberOfDays) :
    availabilitiesLoop eventData date numberOfDays fuel i availabilities
      = some availabilities := by
  cases fuel with
  | zero => simp [availabilitiesLoop]
  | succ n => simp [availabilitiesLoop, h]

theorem availabilitiesLoop_invalid (eventData : EventData) (date numberOfDays : Int)
    (fuel : Nat) (i : Int) (availabilities : JsMap (Option Int) Availability)
    (hv : (validDays date numberOfDays : Int) ≤ i) (hlt : i < numberOfDays)
    (hfuel : (numberOfDays - i).toNat ≤ fuel) :
    availabilitiesLoop eventData date numberOfDays fuel i availabilities
      = some (JsMap.set availabilities none invalidAvailability) := by
  induction fuel generalizing i availabilities with
  | zero => omega
  | succ n ih =>
    simp only [availabilitiesLoop, if_pos hlt,
      tempDateOf_of_ge_validDays date numberOfDays i hv hlt]
    by_cases hnext : i + 1 < numberOfDays
    · rw [ih (i + 1) _ (by omega) hnext (by omega)]
      exact congrArg some (set_set _ _ _)
    · exact availabilitiesLoop_done _ _ _ _ _ _ hnext

theorem availabilitiesLoop_eq (eventData : EventData) (date numberOfDays : Int)
    (hed : ∀ a ∈ eventData.recurringEvents, ∃ e, JsMap.get eventData.eventSchedule a = some e)
    (fuel : Nat) (i : Nat) (availabilities : JsMap (Option Int) Availability)
    (hi : i ≤ validDays date numberOfDays)
    (hfuel : (numberOfDays - (i : Int)).toNat ≤ fuel)
    (hkeys : ∀ k ∈ JsMap.keys availabilities, ∃ d, k = some d ∧ d < formatYMD date + (i : Int)) :
    availabilitiesLoop eventData date numberOfDays fuel (i : Int) availabilities
      = some (availabilities
          ++ (List.range (validDays date numberOfDays - i)).map
              (fun j : Nat => (some (formatYMD date + ((i + j : Nat) : Int)),
                dayAvailability eventData (formatYMD date + ((i + j : Nat) : Int))))
          ++ (if validDays date numberOfDays < numberOfDays.toNat then
                [(none, invalidAvailability)] else [])) := by
  have hle := validDays_le date numberOfDays
  induction fuel generalizing i availabilities with
  | zero =>
    have h1 : validDays date numberOfDays - i = 0 := by omega
    have h2 : ¬ validDays date numberOfDays < numberOfDays.toNat := by omega
    simp [availabilitiesLoop, h1, h2]
  | succ n ih =>
    by_cases hlt : (i : Int) < numberOfDays
    · by_cases hval : i < validDays date numberOfDays
      · have hfresh : some (formatYMD date + (i : Int)) ∉ JsMap.keys availabilities := by
          intro hm
          obtain ⟨d, hd1, hd2⟩ := hkeys _ hm
          have := Option.some.inj hd1
          omega
        have hkeys2 : ∀ (v : Availability), ∀ k ∈ JsMap.keys
            (availabilities ++ [(some (formatYMD date + (i : Int)), v)]),
            ∃ d, k = some d ∧ d < formatYMD date + ((i + 1 : Nat) : Int) := by
          intro v k hk
          simp only [JsMap.keys, List.map_append, List.map_cons, List.map_nil,
            List.mem_append, List.mem_singleton] at hk
          rcases hk with hk | hk
          · obtain ⟨d, hd1, hd2⟩ := hkeys k hk
            exact ⟨d, hd1, by push_cast; omega⟩
          · exact ⟨_, hk, by push_cast; omega⟩
        have hcount : validDays date numberOfDays - i
            = (validDays date numberOfDays - (i + 1)) + 1 := by omega
        have hstep : ∀ (v : Availability),
            availabilitiesLoop eventData date numberOfDays n ((i : Int) + 1)
                (availabilities ++ [(some (formatYMD date + (i : Int)), v)])
              = some (availabilities ++ [(some (formatYMD date + (i : Int)), v)]
                  ++ (List.range (validDays date numberOfDays - (i + 1))).map
                      (fun j : Nat => (some (formatYMD date + ((i + 1 + j : Nat) : Int)),
                        dayAvailability eventData
                          (formatYMD date + ((i + 1 + j : Nat) : Int))))
                  ++ (if validDays date numberOfDays < numberOfDays.toNat then
                        [(none, invalidAvailability)] else [])) := by
          intro v
          have := ih (i + 1) (availabilities ++ [(some (formatYMD date + (i : Int)), v)])
            (by omega) (by push_cast; omega) (hkeys2 v)
          rw [← this]
          push_cast
          rfl
        have hshape : ∀ (v : Availability),
            v = dayAvailability eventData (formatYMD date + (i : Int)) →
            availabilities ++ [(some (formatYMD date + (i : Int)), v)]
                ++ (List.range (validDays date numberOfDays - (i + 1))).map
                    (fun j : Nat => (some (formatYMD date + ((i + 1 + j : Nat) : Int)),
                      dayAvailability eventData
                        (formatYMD date + ((i + 1 + j : Nat) : Int))))
              = availabilities
                ++ (List.range (validDays date numberOfDays - i)).map
                    (fun j : Nat => (some (formatYMD date + ((i + j : Nat) : Int)),
                      dayAvailability eventData (formatYMD date + ((i + j : Nat) : Int)))) := by
          intro v hv
          rw [hcount, List.range_succ_eq_map, List.map_cons, List.map_map, hv,
            List.append_assoc, List.singleton_append]
          congr 2
          apply List.map_congr_left
          intro j _
          simp only [Function.comp, Nat.succ_eq_add_one]
          have e1 : i + 1 + j = i + (j + 1) := by omega
          rw [e1]
        simp only [availabilitiesLoop, if_pos hlt,
          tempDateOf_of_lt_validDays date numberOfDays (i : Int) (by omega)
            (by exact_mod_cast hval),
          getRecurringEvent_eq _ _ _ hed]
        cases hr : resolve (formatYMD date + (i : Int)) eventData.recurringEvents
            eventData.eventSchedule with
        | none =>
          simp only [JsMap.set_fresh _ _ _ hfresh]
          rw [hstep, hshape]
          simp [dayAvailability, daySlots, hr]
        | some ev =>
          simp only [JsMap.set_fresh _ _ _ hfresh]
          rw [hstep, hshape]
          simp [dayAvailability, daySlots, hr]
      · have hieq : validDays date numberOfDays = i := by omega
        have hnone : (none : Option Int) ∉ JsMap.keys availabilities := by
          intro hm
          obtain ⟨d, hd1, _⟩ := hkeys _ hm
          exact Option.noConfusion hd1
        have h2 : validDays date numberOfDays < numberOfDays.toNat := by omega
        rw [availabilitiesLoop_invalid eventData date numberOfDays (n + 1) (i : Int)
          availabilities (by omega) hlt hfuel, JsMap.set_fresh _ _ _ hnone, if_pos h2]
        have h1 : validDays date numberOfDays - i = 0 := by omega
        simp [h1]
    · have h1 : validDays date numberOfDays - i = 0 := by omega
      have h2 : ¬ validDays date numberOfDays < numberOfDays.toNat := by omega
      rw [availabilitiesLoop_done _ _ _ _ _ _ hlt]
      simp [h1, h2]

/-- The result of `getAvailabilities`: one availability per valid day, in order, then a
single one for all the days whose key is the text `Invalid date`, if there are any. -/
theorem getAvailabilities_eq (events : List Event) (date numberOfDays : Int) :
    getAvailabilities events date numberOfDays
      = some ((List.range (validDays date numberOfDays)).map
            (fun j : Nat => dayAvailability (setRecurringEvents events)
              (formatYMD date + (j : Int)))
          ++ (if validDays date numberOfDays < numberOfDays.toNat then
                [invalidAvailability] else [])) := by
  unfold getAvailabilities
  simp only []
  have h := availabilitiesLoop_eq (setRecurringEvents events) date numberOfDays
    (recurringEvents_have_entries events) numberOfDays.toNat 0 [] (Nat.zero_le _) (by simp)
    (by simp [JsMap.keys])
  simp only [Nat.cast_zero] at h
  rw [h]
  simp only [Option.map_some', JsMap.values, List.nil_append, List.map_append, List.map_map,
    Nat.sub_zero, Nat.zero_add]
  congr 2
  split_ifs <;> simp

theorem getAvailabilities_getElem? (events : List Event) (date numberOfDays : Int) (i : Nat)
    (hi : (i : Int) < numberOfDays) (d : Int) (hday : tempDateOf date (i : Int) = some d) :
    ∃ result, getAvailabilities events date numberOfDays = some result ∧
      result[i]? = some { date := some d, slots := daySlots (setRecurringEvents events) d } := by
  refine ⟨_, getAvailabilities_eq events date numberOfDays, ?_⟩
  have hd := (tempDateOf_eq_some date i d).mp hday
  have hlt : i < validDays date numberOfDays := by
    by_contra hge
    have := tempDateOf_of_ge_validDays date numberOfDays (i : Int) (by omega) hi
    rw [this] at hday
    exact Option.noConfusion hday
  rw [List.getElem?_append_left (by simpa using hlt)]
  simp [List.getElem?_map, List.getElem?_range hlt, dayAvailability, hd.2.2]

theorem getAvailabilities_mem_invalid (events : List Event) (date numberOfDays : Int) (i : Nat)
    (hi : (i : Int) < numberOfDays) (hday : tempDateOf date (i : Int) = none) :
    ∃ result, getAvailabilities events date numberOfDays = some result ∧
      invalidAvailability ∈ result := by
  refine ⟨_, getAvailabilities_eq events date numberOfDays, ?_⟩
  have hge : validDays date numberOfDays ≤ i := by
    by_contra hlt
    have := tempDateOf_of_lt_validDays date numberOfDays (i : Int) (by omega) (by omega)
    rw [this] at hday
    exact Option.noConfusion hday
  have h2 : validDays date numberOfDays < numberOfDays.toNat := by omega
  simp [h2]

/-! ## Slots of a day -/

theorem daySlots_opening (events : List Event) (d : Int) (ev : Event)
    (hget : JsMap.get (setRecurringEvents events).eventSchedule d = some ev)
    (hk : ev.kind = "opening") :
    daySlots (setRecurringEvents events) d = grid ev.starts_at ev.ends_at := by
  simp only [daySlots, resolve, hget, if_pos hk, getAvailableSlots]
  exact overlay_opening ev hk _

theorem lastCandidate_eq_none (inputDate : Int) (eventSchedule : JsMap Int Event)
    (recurringEvents : List Int)
    (h : ∀ a ∈ recurringEvents, ¬ (inputDate - a ≥ 0 ∧ (inputDate - a) % 7 = 0)) :
    lastCandidate inputDate eventSchedule recurringEvents = none := by
  unfold lastCandidate
  rw [List.getLast?_eq_none_iff, List.filterMap_eq_nil_iff]
  intro a ha
  unfold candidateAt
  rw [if_neg (h a ha)]

theorem daySlots_closed (events : List Event) (d : Int)
    (hnone : ∀ e ∈ events, formatYMD e.starts_at ≠ d)
    (hanchor : ∀ a ∈ (setRecurringEvents events).recurringEvents,
      ¬ (d - a ≥ 0 ∧ (d - a) % 7 = 0)) :
    daySlots (setRecurringEvents events) d = [] := by
  simp only [daySlots, resolve, eventSchedule_get_none events d hnone,
    lastCandidate_eq_none d _ _ hanchor]

theorem validDays_of_range (date numberOfDays : Int)
    (hrange : 0 < numberOfDays →
      validTime date = true ∧ validTime (date + (numberOfDays - 1) * 86400000) = true) :
    validDays date numberOfDays = numberOfDays.toNat := by
  unfold validDays
  by_cases hn : 0 < numberOfDays
  · obtain ⟨h1, h2⟩ := hrange hn
    rw [if_pos h1]
    simp only [validTime, decide_eq_true_eq] at h1 h2
    omega
  · split_ifs <;> omega

/-- C1, as stated, fails: from the last valid time of a `Date`, 8640000000000000 ms, three
days are requested; the second and the third are past the range, their key is the text
`Invalid date` for both, and the result has two entries, not three. -/
theorem one_entry_per_day_counterexample :
    validTime 8640000000000000 = true
    ∧ fetchEvents [] 8640000000000000 = []
    ∧ tempDateOf 8640000000000000 1 = none ∧ tempDateOf 8640000000000000 2 = none
    ∧ getAvailabilities [] 8640000000000000 3
        = some [{ date := some 100000000, slots := [] }, { date := none, slots := [] }]
    ∧ (getAvailabilities [] 8640000000000000 3).map List.length = some 2 := by
  decide

/-- C1, amended: when the start date and the last requested day are valid dates (or no
day is requested), `getAvailabilities` returns a list; it has `numberOfDays` entries when
that number is not negative, it is empty when that number is not positive, and its `i`-th
entry carries the calendar date of the start date plus `i` days. -/
theorem availabilities_one_entry_per_day (events : List Event) (date numberOfDays : Int)
    (hrange : 0 < numberOfDays →
      validTime date = true ∧ validTime (date + (numberOfDays - 1) * 86400000) = true) :
    ∃ result, getAvailabilities events date numberOfDays = some result ∧
      (0 ≤ numberOfDays → (result.length : Int) = numberOfDays) ∧
      (numberOfDays ≤ 0 → result = []) ∧
      (∀ i : Nat, (i : Int) < numberOfDays →
        (result[i]?).map Availability.date
          = some (some (formatYMD (date + (i : Int) * 86400000)))) := by
  have hv := validDays_of_range date numberOfDays hrange
  refine ⟨_, getAvailabilities_eq events date numberOfDays, ?_, ?_, ?_⟩
  · intro h
    simp only [hv, lt_self_iff_false, if_false, List.append_nil, List.length_map,
      List.length_range]
    omega
  · intro h
    have h0 : numberOfDays.toNat = 0 := by omega
    simp [hv, h0]
  · intro i hi
    have hlt : i < numberOfDays.toNat := by omega
    simp [hv, List.getElem?_map, List.getElem?_range hlt, formatYMD_add_days,
      dayAvailability]

/-- Witness of amended C1: a week from Monday 2014-08-04. -/
theorem availabilities_one_entry_per_day_witness :
    ∃ result, getAvailabilities [weeklyOpening, nextAppointment] monday 7 = some result ∧
      (0 ≤ (7 : Int) → (result.length : Int) = 7) ∧
      ((7 : Int) ≤ 0 → result = []) ∧
      (∀ i : Nat, (i : Int) < 7 →
        (result[i]?).map Availability.date
          = some (some (formatYMD (monday + (i : Int) * 86400000)))) :=
  availabilities_one_entry_per_day [weeklyOpening, nextAppointment] monday 7
    (fun _ => by decide)

/-- C2: when the schedule index holds an opening at a requested day `d`, the key of the
`i`-th iteration, the availability of that day has exactly the thirty-minute grid of that
opening as slots, whatever the recurring anchors are. -/
theorem opening_override_slots (events : List Event) (date numberOfDays : Int) (i : Nat)
    (d : Int) (ev : Event) (hi : (i : Int) < numberOfDays)
    (hday : tempDateOf date (i : Int) = some d)
    (hget : JsMap.get (setRecurringEvents events).eventSchedule d = some ev)
    (hk : ev.kind = "opening") :
    ∃ result, getAvailabilities events date numberOfDays = some result ∧
      result[i]? = some { date := some d, slots := grid ev.starts_at ev.ends_at } := by
  obtain ⟨result, hres, hget2⟩ :=
    getAvailabilities_getElem? events date numberOfDays i hi d hday
  refine ⟨result, hres, ?_⟩
  rw [hget2, daySlots_opening events _ ev hget hk]

/-- Witness of C2: a weekly opening 9:00-11:00 and a one-off opening 13:00-14:00 on the
following Monday; that Monday offers 13:00 and 13:30 only. -/
theorem opening_override_slots_witness :
    grid nextOpening.starts_at nextOpening.ends_at = ["13:00", "13:30"] ∧
    ∃ result, getAvailabilities [weeklyOpening, nextOpening] monday 8 = some result ∧
      result[7]? = some
        { date := some 16293, slots := grid nextOpening.starts_at nextOpening.ends_at } :=
  ⟨by decide, opening_override_slots [weeklyOpening, nextOpening] monday 8 7 16293
    nextOpening (by decide) (by decide) (by decide) (by decide)⟩

/-- C6: a requested day on which no fetched event starts and which is a whole number of
weeks after no recurring anchor has an availability with no slot, at its place in the
result; and when the key of the day is the text `Invalid date`, the availability stored
under that key has no slot either. -/
theorem closed_day_has_no_slot (events : List Event) (date numberOfDays : Int) (i : Nat)
    (hi : (i : Int) < numberOfDays)
    (hnone : ∀ e ∈ events, tempDateOf date (i : Int) ≠ some (formatYMD e.starts_at))
    (hanchor : ∀ a ∈ (setRecurringEvents events).recurringEvents,
      ∀ d, tempDateOf date (i : Int) = some d → ¬ (d - a ≥ 0 ∧ (d - a) % 7 = 0)) :
    ∃ result, getAvailabilities events date numberOfDays = some result ∧
      (∀ d, tempDateOf date (i : Int) = some d →
        result[i]? = some { date := some d, slots := [] }) ∧
      (tempDateOf date (i : Int) = none → { date := none, slots := [] } ∈ result) := by
  refine ⟨_, getAvailabilities_eq events date numberOfDays, ?_, ?_⟩
  · intro d hday
    obtain ⟨result, hres, hget2⟩ :=
      getAvailabilities_getElem? events date numberOfDays i hi d hday
    rw [getAvailabilities_eq] at hres
    rw [Option.some.inj hres, hget2, daySlots_closed events d
      (fun e he hd => hnone e he (by rw [hday, hd])) (fun a ha => hanchor a ha d hday)]
  · intro hday
    obtain ⟨result, hres, hmem⟩ :=
      getAvailabilities_mem_invalid events date numberOfDays i hi hday
    rw [getAvailabilities_eq] at hres
    rw [Option.some.inj hres]
    exact hmem

/-- Witness of C6: with one weekly opening on Monday, the Tuesday is closed. -/
theorem closed_day_has_no_slot_witness :
    ∃ result, getAvailabilities [weeklyOpening] monday 2 = some result ∧
      (∀ d, tempDateOf monday ((1 : Nat) : Int) = some d →
        result[1]? = some { date := some d, slots := [] }) ∧
      (tempDateOf monday ((1 : Nat) : Int) = none → { date := none, slots := [] } ∈ result) :=
  closed_day_has_no_slot [weeklyOpening] monday 2 1 (by decide) (by decide)
    (by
      intro a ha d hd
      have hd2 : d = 16287 := (Option.some.inj ((by decide : tempDateOf monday ((1 : Nat) : Int)
        = some 16287).symm.trans hd)).symm
      subst hd2
      revert a
      decide)

/-! ## Recurrence projection -/

theorem candidateAt_eq_some (inputDate : Int) (eventSchedule : JsMap Int Event) (a : Int)
    (e : Event) :
    candidateAt inputDate eventSchedule a = some e
      ↔ inputDate - a ≥ 0 ∧ (inputDate - a) % 7 = 0
          ∧ JsMap.get eventSchedule a = some e ∧ e.kind = "opening" := by
  unfold candidateAt
  by_cases hd : inputDate - a ≥ 0 ∧ (inputDate - a) % 7 = 0
  · rw [if_pos hd]
    cases hg : JsMap.get eventSchedule a with
    | none => simp [Option.filter]
    | some e' =>
      by_cases hk : e'.kind = "opening"
      · simp only [Option.filter, hk, decide_True, if_true, Option.some.injEq]
        constructor
        · intro h
          subst h
          exact ⟨hd.1, hd.2, rfl, hk⟩
        · intro h
          exact h.2.2.1
      · simp only [Option.filter, hk, decide_False, Option.some.injEq]
        constructor
        · intro h
          simp at h
        · intro h
          exact absurd (h.2.2.1 ▸ h.2.2.2) hk
  · rw [if_neg hd]
    constructor
    · intro h
      simp at h
    · intro h
      exact absurd ⟨h.1, h.2.1⟩ hd

theorem lastCandidate_eq_some (inputDate : Int) (eventSchedule : JsMap Int Event)
    (recurringEvents : List Int) (E : Event)
    (hall : ∀ a ∈ recurringEvents, ∀ e, candidateAt inputDate eventSchedule a = some e → e = E)
    (hex : ∃ a ∈ recurringEvents, candidateAt inputDate eventSchedule a = some E) :
    lastCandidate inputDate eventSchedule recurringEvents = some E := by
  unfold lastCandidate
  obtain ⟨a, ha, hc⟩ := hex
  have hmem : E ∈ recurringEvents.filterMap (candidateAt inputDate eventSchedule) :=
    List.mem_filterMap.mpr ⟨a, ha, hc⟩
  have hne : recurringEvents.filterMap (candidateAt inputDate eventSchedule) ≠ [] :=
    List.ne_nil_of_mem hmem
  rw [List.getLast?_eq_getLast _ hne]
  have hlast := List.getLast_mem hne
  obtain ⟨b, hb, hcb⟩ := List.mem_filterMap.mp hlast
  rw [hall b hb _ hcb]

theorem daySlots_recurring (events : List Event) (d : Int) (E : Event)
    (hnone : ∀ e ∈ events, formatYMD e.starts_at ≠ d)
    (hlast : lastCandidate d (setRecurringEvents events).eventSchedule
      (setRecurringEvents events).recurringEvents = some E) :
    daySlots (setRecurringEvents events) d = grid E.starts_at E.ends_at := by
  simp only [daySlots, resolve, eventSchedule_get_none events d hnone, hlast,
    getAvailableSlots, windowSlots_eq_grid]

theorem candidateAt_eq_none (d : Int) (eventSchedule : JsMap Int Event) (a : Int)
    (h : ∀ e, d - a ≥ 0 → (d - a) % 7 = 0 → JsMap.get eventSchedule a = some e →
      e.kind ≠ "opening") :
    candidateAt d eventSchedule a = none := by
  cases hc : candidateAt d eventSchedule a with
  | none => rfl
  | some e =>
    obtain ⟨h1, h2, h3, h4⟩ := (candidateAt_eq_some d eventSchedule a e).mp hc
    exact absurd h4 (h e h1 h2 h3)

theorem lastCandidate_split (d : Int) (eventSchedule : JsMap Int Event)
    (pre post : List Int) (A : Int) (E : Event)
    (hA : candidateAt d eventSchedule A = some E)
    (hpost : ∀ a ∈ post, candidateAt d eventSchedule a = none) :
    lastCandidate d eventSchedule (pre ++ A :: post) = some E := by
  unfold lastCandidate
  have hnil : post.filterMap (candidateAt d eventSchedule) = [] :=
    List.filterMap_eq_nil_iff.mpr hpost
  rw [List.filterMap_append, List.filterMap_cons_some hA, hnil]
  simp

/-- C4, as stated, fails on two inputs. With a weekly opening on Monday 9:00-11:00 and an
appointment starting the same Monday, the index entry of the anchor is the appointment and
the following Monday has no slot. With a second weekly opening 14:00-15:00 anchored one
week later, the Monday two weeks after the first anchor takes the slots of the second
opening. In both, the first opening meets every condition of the claim. -/
theorem recurring_projection_counterexample :
    (fetchEvents [weeklyOpening, sameDayAppointment] monday
        = [weeklyOpening, sameDayAppointment]
      ∧ weeklyOpening ∈ [weeklyOpening, sameDayAppointment]
      ∧ weeklyOpening.kind = "opening" ∧ weeklyOpening.weekly_recurring = some 1
      ∧ tempDateOf monday 7 = some 16293
      ∧ 16293 - formatYMD weeklyOpening.starts_at = 7 * 1
      ∧ (∀ e ∈ [weeklyOpening, sameDayAppointment], formatYMD e.starts_at ≠ 16293)
      ∧ (getAvailabilities [weeklyOpening, sameDayAppointment] monday 8).bind
          (fun result => result[7]?)
          = some { date := some 16293, slots := [] }
      ∧ grid weeklyOpening.starts_at weeklyOpening.ends_at
          = ["9:00", "9:30", "10:00", "10:30"])
    ∧ (fetchEvents [weeklyOpening, laterOpening] monday = [weeklyOpening, laterOpening]
      ∧ weeklyOpening ∈ [weeklyOpening, laterOpening]
      ∧ tempDateOf monday 14 = some 16300
      ∧ 16300 - formatYMD weeklyOpening.starts_at = 7 * 2
      ∧ (∀ e ∈ [weeklyOpening, laterOpening], formatYMD e.starts_at ≠ 16300)
      ∧ (getAvailabilities [weeklyOpening, laterOpening] monday 15).bind
          (fun result => result[14]?)
          = some { date := some 16300, slots := ["14:00", "14:30"] }) := by
  decide

/-- C4, amended: for a weekly recurring opening `E` of the fetched list with anchor date
`A` and a requested day `d` a positive whole number of weeks after `A` on which no fetched
event starts, if `E` is the schedule-index entry of `A` and no anchor after `A` in the
anchor list is a candidate for `d` (so `A` is the last candidate), then the availability
of `d` has exactly the grid of `E` as slots. -/
theorem recurring_projection_slots (events : List Event) (date numberOfDays : Int) (i : Nat)
    (d : Int) (E : Event) (pre post : List Int) (hi : (i : Int) < numberOfDays)
    (hday : tempDateOf date (i : Int) = some d) (_hE : E ∈ events)
    (hk : E.kind = "opening") (_hw : E.weekly_recurring = some 1)
    (hpos : d - formatYMD E.starts_at > 0) (hmod : (d - formatYMD E.starts_at) % 7 = 0)
    (hnone : ∀ e ∈ events, formatYMD e.starts_at ≠ d)
    (hentry : JsMap.get (setRecurringEvents events).eventSchedule (formatYMD E.starts_at)
      = some E)
    (hsplit : (setRecurringEvents events).recurringEvents
      = pre ++ formatYMD E.starts_at :: post)
    (hlast : ∀ a ∈ post, ∀ e, d - a ≥ 0 → (d - a) % 7 = 0 →
      JsMap.get (setRecurringEvents events).eventSchedule a = some e → e.kind ≠ "opening") :
    ∃ result, getAvailabilities events date numberOfDays = some result ∧
      result[i]? = some { date := some d, slots := grid E.starts_at E.ends_at } := by
  obtain ⟨result, hres, hget2⟩ :=
    getAvailabilities_getElem? events date numberOfDays i hi d hday
  refine ⟨result, hres, ?_⟩
  rw [hget2, daySlots_recurring events _ E hnone]
  rw [hsplit]
  apply lastCandidate_split
  · rw [candidateAt_eq_some]
    exact ⟨le_of_lt hpos, hmod, hentry, hk⟩
  · intro a ha
    exact candidateAt_eq_none d _ a (hlast a ha)

/-- Witness of amended C4: an opening 9:00-11:00 recurring from a Monday gives 9:00, 9:30,
10:00 and 10:30 on the following Monday; and with a second weekly opening anchored one
week later, two weeks after the first anchor the second opening, whose anchor is the last
candidate, gives its slots 14:00 and 14:30. -/
theorem recurring_projection_slots_witness :
    (grid weeklyOpening.starts_at weeklyOpening.ends_at = ["9:00", "9:30", "10:00", "10:30"] ∧
      ∃ result, getAvailabilities [weeklyOpening] monday 8 = some result ∧
        result[7]? = some
          { date := some 16293,
            slots := grid weeklyOpening.starts_at weeklyOpening.ends_at }) ∧
    (grid laterOpening.starts_at laterOpening.ends_at = ["14:00", "14:30"] ∧
      ∃ result, getAvailabilities [weeklyOpening, laterOpening] monday 15 = some result ∧
        result[14]? = some
          { date := some 16300,
            slots := grid laterOpening.starts_at laterOpening.ends_at }) :=
  ⟨⟨by decide, recurring_projection_slots [weeklyOpening] monday 8 7 16293
    weeklyOpening [] [] (by decide) (by decide) (by decide) (by decide) (by decide)
    (by decide) (by decide) (by decide) (by decide) (by decide)
    (fun a ha => absurd ha (List.not_mem_nil a))⟩,
   ⟨by decide, recurring_projection_slots [weeklyOpening, laterOpening] monday 15 14 16300
    laterOpening [16286] [] (by decide) (by decide) (by decide) (by decide) (by decide)
    (by decide) (by decide) (by decide) (by decide) (by decide)
    (fun a ha => absurd ha (List.not_mem_nil a))⟩⟩

/-- C5, as stated, fails: with a weekly opening on Monday 9:00-11:00 followed in the
fetched list by an appointment starting the same Monday, the index entry of the anchor
date is the appointment and the anchor date itself has no slot. -/
theorem anchor_day_counterexample :
    fetchEvents [weeklyOpening, sameDayAppointment] monday
        = [weeklyOpening, sameDayAppointment]
    ∧ weeklyOpening ∈ [weeklyOpening, sameDayAppointment]
    ∧ weeklyOpening.kind = "opening" ∧ weeklyOpening.weekly_recurring = some 1
    ∧ tempDateOf monday 0 = some (formatYMD weeklyOpening.starts_at)
    ∧ getAvailabilities [weeklyOpening, sameDayAppointment] monday 1
        = some [{ date := some (formatYMD weeklyOpening.starts_at), slots := [] }]
    ∧ grid weeklyOpening.starts_at weeklyOpening.ends_at
        = ["9:00", "9:30", "10:00", "10:30"] := by
  decide

/-- C5, amended: for a weekly recurring opening `E` of the fetched list whose anchor date
is a requested day, if `E` is the schedule-index entry of its anchor date (no later
fetched event starts that day), the availability of that day has exactly the grid of `E`
as slots. -/
theorem anchor_day_slots (events : List Event) (date numberOfDays : Int) (i : Nat)
    (E : Event) (hi : (i : Int) < numberOfDays) (_hE : E ∈ events)
    (hk : E.kind = "opening") (_hw : E.weekly_recurring = some 1)
    (hday : tempDateOf date (i : Int) = some (formatYMD E.starts_at))
    (hentry : JsMap.get (setRecurringEvents events).eventSchedule (formatYMD E.starts_at)
      = some E) :
    ∃ result, getAvailabilities events date numberOfDays = some result ∧
      result[i]? = some
        { date := some (formatYMD E.starts_at), slots := grid E.starts_at E.ends_at } := by
  obtain ⟨result, hres, hget2⟩ :=
    getAvailabilities_getElem? events date numberOfDays i hi _ hday
  refine ⟨result, hres, ?_⟩
  rw [hget2, daySlots_opening events _ E hentry hk]

/-- Witness of amended C5: the anchor Monday of a weekly opening 9:00-11:00, followed by
an appointment one week later. -/
theorem anchor_day_slots_witness :
    ∃ result, getAvailabilities [weeklyOpening, nextAppointment] monday 1 = some result ∧
      result[0]? = some
        { date := some (formatYMD weeklyOpening.starts_at),
          slots := grid weeklyOpening.starts_at weeklyOpening.ends_at } :=
  anchor_day_slots [weeklyOpening, nextAppointment] monday 1 0 weeklyOpening
    (by decide) (by decide) (by decide) (by decide) (by decide) (by decide)

/-! ## Events of unknown kind -/

theorem lastCandidate_congr (d : Int) (s1 s2 : JsMap Int Event) (anchors : List Int)
    (h : ∀ a ∈ anchors, JsMap.get s1 a = JsMap.get s2 a) :
    lastCandidate d s1 anchors = lastCandidate d s2 anchors := by
  unfold lastCandidate
  congr 1
  apply List.filterMap_congr
  intro a ha
  simp only [candidateAt, h a ha]

/-- C8 fails on the code: with a weekly opening on Monday 9:00-11:00 and an event of kind
`holiday` starting on the following Monday, the resolver still returns the weekly opening
for that Monday, but `getAvailableSlots` takes the branch `event !== undefined` and
returns the never-assigned `filteredSlots`, so the day has no slot; without the event of
unknown kind it has the four slots of the opening. -/
theorem unknown_kind_clears_slots :
    fetchEvents [weeklyOpening, holiday] monday = [weeklyOpening, holiday]
    ∧ holiday.kind ≠ "opening" ∧ holiday.kind ≠ "appointment"
    ∧ [weeklyOpening, holiday].filter knownKind = [weeklyOpening]
    ∧ tempDateOf monday 7 = some 16293
    ∧ getRecurringEvent 16293 (setRecurringEvents [weeklyOpening, holiday]).recurringEvents
        (setRecurringEvents [weeklyOpening, holiday]).eventSchedule
        = some (some weeklyOpening)
    ∧ getAvailableSlots 16293 (setRecurringEvents [weeklyOpening, holiday]).eventSchedule
        weeklyOpening = []
    ∧ (getAvailabilities [weeklyOpening, holiday] monday 8).bind (fun result => result[7]?)
        = some { date := some 16293, slots := [] }
    ∧ (getAvailabilities ([weeklyOpening, holiday].filter knownKind) monday 8).bind
        (fun result => result[7]?)
        = some { date := some 16293, slots := ["9:00", "9:30", "10:00", "10:30"] }
    ∧ getAvailabilities [weeklyOpening, holiday] monday 8
        ≠ getAvailabilities ([weeklyOpening, holiday].filter knownKind) monday 8 := by
  decide

/-! ## Order of the slots -/

theorem digit_inj (a b : Nat) (ha : a < 10) (hb : b < 10) (h : digit a = digit b) : a = b := by
  interval_cases a <;> interval_cases b <;> first | rfl | exact absurd h (by decide)

theorem hmm_inj (h m h' m' : Nat) (hh : h < 24) (hm : m < 60) (hh' : h' < 24) (hm' : m' < 60)
    (e : hmm h m = hmm h' m') : h = h' ∧ m = m' := by
  unfold hmm at e
  injection e with e'
  by_cases c1 : h < 10
  · by_cases c2 : h' < 10
    · rw [if_pos c1, if_pos c2] at e'
      simp only [List.cons.injEq, and_true, true_and] at e'
      obtain ⟨e1, e2, e3⟩ := e'
      have k1 := digit_inj h h' c1 c2 e1
      have k2 := digit_inj (m / 10) (m' / 10) (by omega) (by omega) e2
      have k3 := digit_inj (m % 10) (m' % 10) (by omega) (by omega) e3
      omega
    · rw [if_pos c1, if_neg c2] at e'
      have hl := congrArg List.length e'
      simp at hl
  · by_cases c2 : h' < 10
    · rw [if_neg c1, if_pos c2] at e'
      have hl := congrArg List.length e'
      simp at hl
    · rw [if_neg c1, if_neg c2] at e'
      simp only [List.cons.injEq, and_true, true_and] at e'
      obtain ⟨e0, e1, e2, e3⟩ := e'
      have k0 := digit_inj (h / 10) (h' / 10) (by omega) (by omega) e0
      have k1 := digit_inj (h % 10) (h' % 10) (by omega) (by omega) e1
      have k2 := digit_inj (m / 10) (m' / 10) (by omega) (by omega) e2
      have k3 := digit_inj (m % 10) (m' % 10) (by omega) (by omega) e3
      omega

theorem labelOfMinute_inj (m m' : Nat) (hm : m < 1440) (hm' : m' < 1440)
    (e : labelOfMinute m = labelOfMinute m') : m = m' := by
  have h := hmm_inj (m / 60) (m % 60) (m' / 60) (m' % 60) (by omega) (by omega) (by omega)
    (by omega) e
  omega

theorem formatHmm_eq_labelOfMinute (ts : Int) :
    formatHmm ts = labelOfMinute (((ts / 60000) % 1440).toNat) := by
  unfold formatHmm labelOfMinute hourOf minuteOf
  congr 1 <;> omega

theorem AscendingTimeOfDay.nil : AscendingTimeOfDay [] :=
  ⟨[], List.Pairwise.nil, by simp, by simp⟩

theorem AscendingTimeOfDay.sublist {l l' : List String} (h : AscendingTimeOfDay l)
    (hs : List.Sublist l' l) : AscendingTimeOfDay l' := by
  obtain ⟨ms, hp, hb, he⟩ := h
  rw [he] at hs
  obtain ⟨ms', hsub, heq⟩ := List.sublist_map_iff.mp hs
  exact ⟨ms', hp.sublist hsub, fun m hm => hb m (hsub.subset hm), heq⟩

theorem AscendingTimeOfDay.nodup {l : List String} (h : AscendingTimeOfDay l) : l.Nodup := by
  obtain ⟨ms, hp, hb, he⟩ := h
  rw [he]
  apply List.Nodup.map_on
  · intro x hx y hy hxy
    exact labelOfMinute_inj x y (hb x hx) (hb y hy) hxy
  · exact hp.imp (fun hab => Nat.ne_of_lt hab)

theorem grid_ascending (s e : Int) (h : e ≤ (formatYMD s + 1) * 86400000) :
    AscendingTimeOfDay (grid s e) := by
  unfold formatYMD at h
  refine ⟨(List.range (slotCount s e)).map
    (fun k : Nat => ((s / 60000) % 1440).toNat + 30 * k), ?_, ?_, ?_⟩
  · apply List.Pairwise.map _ _ (List.pairwise_lt_range (slotCount s e))
    intro a b hab
    show _ + 30 * a < _ + 30 * b
    omega
  · intro m hm
    obtain ⟨k, hk, rfl⟩ := List.mem_map.mp hm
    have hlt := (lt_slotCount_iff s e k).mp (List.mem_range.mp hk)
    omega
  · unfold grid
    rw [List.map_map]
    apply List.map_congr_left
    intro k hk
    have hlt := (lt_slotCount_iff s e k).mp (List.mem_range.mp hk)
    simp only [Function.comp, formatHmm_eq_labelOfMinute]
    congr 1
    omega

theorem lastCandidate_mem (d : Int) (eventSchedule : JsMap Int Event) (anchors : List Int)
    (r : Event) (h : lastCandidate d eventSchedule anchors = some r) :
    ∃ a ∈ anchors, candidateAt d eventSchedule a = some r := by
  unfold lastCandidate at h
  exact List.mem_filterMap.mp (List.mem_of_getLast?_eq_some h)

theorem resolve_mem (events : List Event) (d : Int) (r : Event)
    (h : resolve d (setRecurringEvents events).recurringEvents
      (setRecurringEvents events).eventSchedule = some r) :
    r ∈ events ∧ r.kind = "opening" := by
  have hcand : lastCandidate d (setRecurringEvents events).eventSchedule
      (setRecurringEvents events).recurringEvents = some r → r ∈ events ∧ r.kind = "opening" := by
    intro hl
    obtain ⟨a, _, hc⟩ := lastCandidate_mem d _ _ r hl
    rw [candidateAt_eq_some] at hc
    exact ⟨(eventSchedule_get_mem events a r hc.2.2.1).1, hc.2.2.2⟩
  unfold resolve at h
  cases hg : JsMap.get (setRecurringEvents events).eventSchedule d with
  | none =>
    rw [hg] at h
    exact hcand h
  | some ev =>
    rw [hg] at h
    by_cases hk : ev.kind = "opening"
    · simp only [if_pos hk, Option.some.injEq] at h
      subst h
      exact ⟨(eventSchedule_get_mem events d ev hg).1, hk⟩
    · simp only [if_neg hk] at h
      exact hcand h

theorem daySlots_sublist_grid (events : List Event) (d : Int) :
    daySlots (setRecurringEvents events) d = [] ∨
      ∃ E ∈ events, E.kind = "opening" ∧
        List.Sublist (daySlots (setRecurringEvents events) d)
          (grid E.starts_at E.ends_at) := by
  unfold daySlots
  cases hr : resolve d (setRecurringEvents events).recurringEvents
      (setRecurringEvents events).eventSchedule with
  | none => exact Or.inl rfl
  | some r =>
    obtain ⟨hrmem, hrk⟩ := resolve_mem events d r hr
    simp only [getAvailableSlots, windowSlots_eq_grid]
    cases hg : JsMap.get (setRecurringEvents events).eventSchedule d with
    | none => exact Or.inr ⟨r, hrmem, hrk, List.Sublist.refl _⟩
    | some ev =>
      simp only []
      by_cases hk : ev.kind = "opening"
      · rw [overlay_opening ev hk]
        exact Or.inr ⟨ev, (eventSchedule_get_mem events d ev hg).1, hk, List.Sublist.refl _⟩
      · by_cases hk2 : ev.kind = "appointment"
        · rw [overlay_appointment ev hk2]
          by_cases hw : ev.starts_at < ev.ends_at
          · rw [if_pos hw]
            exact Or.inr ⟨r, hrmem, hrk, List.filter_sublist _⟩
          · rw [if_neg hw]
            exact Or.inl rfl
        · rw [overlay_inert ev hk hk2]
          exact Or.inl rfl

/-- C9, as stated, fails: a one-off opening from Monday 23:00 to Tuesday 1:00 gives the
Monday the slots 23:00, 23:30, 0:00, 0:30, which are not in ascending time-of-day
order. -/
theorem ascending_slots_counterexample :
    fetchEvents [nightOpening] monday = [nightOpening]
    ∧ getAvailabilities [nightOpening] monday 1
        = some [{ date := some (formatYMD monday),
                  slots := ["23:00", "23:30", "0:00", "0:30"] }]
    ∧ ¬ AscendingTimeOfDay ["23:00", "23:30", "0:00", "0:30"] := by
  refine ⟨by decide, by decide, ?_⟩
  rintro ⟨ms, hp, hb, he⟩
  rcases ms with _ | ⟨a, _ | ⟨b, _ | ⟨c, _ | ⟨d, _ | ⟨x, rest⟩⟩⟩⟩⟩
  case cons.cons.cons.cons.nil =>
    simp only [List.map_cons, List.map_nil, List.cons.injEq, and_true] at he
    obtain ⟨ha, _, hc, _⟩ := he
    have h1 : a = 1380 :=
      labelOfMinute_inj a 1380 (hb a (by simp)) (by decide)
        (ha.symm.trans (by decide))
    have h2 : c = 0 :=
      labelOfMinute_inj c 0 (hb c (by simp)) (by decide)
        (hc.symm.trans (by decide))
    simp only [List.pairwise_cons, List.mem_cons] at hp
    have h3 := hp.1 c (Or.inr (Or.inl rfl))
    omega
  all_goals
    have hl := congrArg List.length he
    simp at hl

/-- C9, amended: when the window of every fetched opening ends no later than the midnight
that follows its start, the slots of every requested day are in strictly ascending
time-of-day order, and no label is repeated: for a day `d`, in the availability at its
place in the result, and when the key of the day is the text `Invalid date`, in the
availability stored under that key. -/
theorem slots_ascending_within_day (events : List Event) (date numberOfDays : Int) (i : Nat)
    (hi : (i : Int) < numberOfDays)
    (hwin : ∀ e ∈ events, e.kind = "opening" →
      e.ends_at ≤ (formatYMD e.starts_at + 1) * 86400000) :
    ∃ result, getAvailabilities events date numberOfDays = some result ∧
      (∀ d, tempDateOf date (i : Int) = some d →
        ∃ av, result[i]? = some av ∧ av.date = some d ∧
          AscendingTimeOfDay av.slots ∧ av.slots.Nodup) ∧
      (tempDateOf date (i : Int) = none →
        ∃ av ∈ result, av.date = none ∧ AscendingTimeOfDay av.slots ∧ av.slots.Nodup) := by
  refine ⟨_, getAvailabilities_eq events date numberOfDays, ?_, ?_⟩
  · intro d hday
    obtain ⟨result, hres, hget2⟩ :=
      getAvailabilities_getElem? events date numberOfDays i hi d hday
    rw [getAvailabilities_eq] at hres
    have hasc : AscendingTimeOfDay (daySlots (setRecurringEvents events) d) := by
      rcases daySlots_sublist_grid events d with h0 | ⟨E, hE, hk, hs⟩
      · rw [h0]
        exact AscendingTimeOfDay.nil
      · exact (grid_ascending E.starts_at E.ends_at (hwin E hE hk)).sublist hs
    rw [Option.some.inj hres]
    exact ⟨_, hget2, rfl, hasc, hasc.nodup⟩
  · intro hday
    obtain ⟨result, hres, hmem⟩ :=
      getAvailabilities_mem_invalid events date numberOfDays i hi hday
    rw [getAvailabilities_eq] at hres
    rw [Option.some.inj hres]
    exact ⟨invalidAvailability, hmem, rfl, AscendingTimeOfDay.nil, List.nodup_nil⟩

/-- Witness of amended C9: the Monday one week after a weekly opening 9:00-11:00, with an
appointment 10:00-10:30 that day. -/
theorem slots_ascending_within_day_witness :
    ∃ result, getAvailabilities [weeklyOpening, nextAppointment] monday 8 = some result ∧
      (∀ d, tempDateOf monday ((7 : Nat) : Int) = some d →
        ∃ av, result[7]? = some av ∧ av.date = some d ∧
          AscendingTimeOfDay av.slots ∧ av.slots.Nodup) ∧
      (tempDateOf monday ((7 : Nat) : Int) = none →
        ∃ av ∈ result, av.date = none ∧ AscendingTimeOfDay av.slots ∧ av.slots.Nodup) :=
  slots_ascending_within_day [weeklyOpening, nextAppointment] monday 8 7 (by decide)
    (by decide)

/-! ## The last candidate anchor -/

theorem resolve_of_no_opening (d : Int) (anchors : List Int) (eventSchedule : JsMap Int Event)
    (hnot : ∀ ev, JsMap.get eventSchedule d = some ev → ev.kind ≠ "opening") :
    resolve d anchors eventSchedule = lastCandidate d eventSchedule anchors := by
  unfold resolve
  cases hg : JsMap.get eventSchedule d with
  | none => rfl
  | some ev => simp only [if_neg (hnot ev hg)]

/-- C11: when every anchor date is a key of the index, the index entry of the target date
is absent or not an opening, and the anchor `A` is a candidate with no candidate after it
in the anchor list, `getRecurringEvent` returns the event stored at `A`. -/
theorem last_candidate_anchor_wins (d : Int) (eventSchedule : JsMap Int Event)
    (pre post : List Int) (A : Int) (E : Event)
    (hkeys : ∀ a ∈ pre ++ A :: post, ∃ e, JsMap.get eventSchedule a = some e)
    (hnot : ∀ ev, JsMap.get eventSchedule d = some ev → ev.kind ≠ "opening")
    (hdiff : d - A ≥ 0) (hmod : (d - A) % 7 = 0)
    (hstored : JsMap.get eventSchedule A = some E) (hkind : E.kind = "opening")
    (hpost : ∀ a ∈ post, ∀ e, d - a ≥ 0 → (d - a) % 7 = 0 →
      JsMap.get eventSchedule a = some e → e.kind ≠ "opening") :
    getRecurringEvent d (pre ++ A :: post) eventSchedule = some (some E) := by
  rw [getRecurringEvent_eq d _ _ hkeys, resolve_of_no_opening d _ _ hnot]
  congr 1
  apply lastCandidate_split
  · exact (candidateAt_eq_some d eventSchedule A E).mpr ⟨hdiff, hmod, hstored, hkind⟩
  · intro a ha
    exact candidateAt_eq_none d eventSchedule a (hpost a ha)

/-- Witness of C11: two weekly openings anchored one week apart; two weeks after the
first anchor the later anchor, last in the list, gives the event. -/
theorem last_candidate_anchor_wins_witness :
    (setRecurringEvents [weeklyOpening, laterOpening]).recurringEvents
        = [16286] ++ 16293 :: [] ∧
    getRecurringEvent 16300 ([16286] ++ 16293 :: [])
        (setRecurringEvents [weeklyOpening, laterOpening]).eventSchedule
      = some (some laterOpening) :=
  ⟨by decide, last_candidate_anchor_wins 16300
    (setRecurringEvents [weeklyOpening, laterOpening]).eventSchedule [16286] [] 16293
    laterOpening
    (by
      intro a ha
      simp only [List.mem_append, List.mem_cons, List.mem_singleton, List.not_mem_nil,
        or_false] at ha
      rcases ha with rfl | rfl
      · exact ⟨weeklyOpening, by decide⟩
      · exact ⟨laterOpening, by decide⟩)
    (by decide) (by decide) (by decide) (by decide) (by decide)
    (fun a ha => absurd ha (List.not_mem_nil a))⟩

/-- C12: when every anchor date is a key of the index, `getRecurringEvent` returns the
empty object exactly when the index has no opening at the target date and no anchor is a
candidate. -/
theorem resolver_none_iff (d : Int) (anchors : List Int) (eventSchedule : JsMap Int Event)
    (hkeys : ∀ a ∈ anchors, ∃ e, JsMap.get eventSchedule a = some e) :
    getRecurringEvent d anchors eventSchedule = some none
      ↔ (¬ ∃ ev, JsMap.get eventSchedule d = some ev ∧ ev.kind = "opening")
        ∧ (¬ ∃ a ∈ anchors, d - a ≥ 0 ∧ (d - a) % 7 = 0
            ∧ ∃ e, JsMap.get eventSchedule a = some e ∧ e.kind = "opening") := by
  rw [getRecurringEvent_eq d anchors eventSchedule hkeys]
  have hlast : lastCandidate d eventSchedule anchors = none
      ↔ ¬ ∃ a ∈ anchors, d - a ≥ 0 ∧ (d - a) % 7 = 0
          ∧ ∃ e, JsMap.get eventSchedule a = some e ∧ e.kind = "opening" := by
    unfold lastCandidate
    rw [List.getLast?_eq_none_iff, List.filterMap_eq_nil_iff]
    constructor
    · rintro h ⟨a, ha, h1, h2, e, h3, h4⟩
      have hc := (candidateAt_eq_some d eventSchedule a e).mpr ⟨h1, h2, h3, h4⟩
      rw [h a ha] at hc
      exact Option.noConfusion hc
    · intro h a ha
      apply candidateAt_eq_none
      intro e h1 h2 h3 h4
      exact h ⟨a, ha, h1, h2, e, h3, h4⟩
  constructor
  · intro h
    have hr : resolve d anchors eventSchedule = none := Option.some.inj h
    have hno : ¬ ∃ ev, JsMap.get eventSchedule d = some ev ∧ ev.kind = "opening" := by
      rintro ⟨ev, hg, hk⟩
      simp [resolve, hg, hk] at hr
    refine ⟨hno, hlast.mp ?_⟩
    rw [← resolve_of_no_opening d anchors eventSchedule
      (fun ev hg hk => hno ⟨ev, hg, hk⟩)]
    exact hr
  · rintro ⟨hno, hcand⟩
    rw [resolve_of_no_opening d anchors eventSchedule (fun ev hg hk => hno ⟨ev, hg, hk⟩),
      hlast.mpr hcand]

/-- Witness of C12: with one weekly opening on Monday, the resolver returns the empty
object for the Tuesday, which has no opening and no candidate anchor. -/
theorem resolver_none_iff_witness :
    getRecurringEvent 16287 (setRecurringEvents [weeklyOpening]).recurringEvents
        (setRecurringEvents [weeklyOpening]).eventSchedule = some none :=
  (resolver_none_iff 16287 (setRecurringEvents [weeklyOpening]).recurringEvents
    (setRecurringEvents [weeklyOpening]).eventSchedule
    (recurringEvents_have_entries [weeklyOpening])).mpr
    ⟨by decide, by decide⟩

/-! ## The index: one entry per date, every anchor a key -/

theorem keys_set_of_mem {κ β : Type} [DecidableEq κ] (m : JsMap κ β) (k : κ) (v : β)
    (h : k ∈ JsMap.keys m) : JsMap.keys (JsMap.set m k v) = JsMap.keys m := by
  induction m with
  | nil => simp [JsMap.keys] at h
  | cons p rest ih =>
    obtain ⟨a, b⟩ := p
    by_cases hak : a = k
    · subst hak
      simp [JsMap.set, JsMap.keys]
    · have hrest : k ∈ JsMap.keys rest := by
        simp only [JsMap.keys, List.map_cons, List.mem_cons] at h
        rcases h with h | h
        · exact absurd h.symm hak
        · exact h
      have ih2 := ih hrest
      simp only [JsMap.keys] at ih2
      simp [JsMap.set, JsMap.keys, hak, ih2]

theorem nodup_keys_set {κ β : Type} [DecidableEq κ] (m : JsMap κ β) (k : κ) (v : β)
    (h : (JsMap.keys m).Nodup) : (JsMap.keys (JsMap.set m k v)).Nodup := by
  by_cases hk : k ∈ JsMap.keys m
  · rw [keys_set_of_mem m k v hk]
    exact h
  · rw [JsMap.set_fresh m k v hk]
    simp only [JsMap.keys, List.map_append, List.map_cons, List.map_nil]
    rw [List.nodup_append]
    refine ⟨h, List.nodup_singleton k, ?_⟩
    intro a ha hb
    rw [List.mem_singleton] at hb
    subst hb
    exact hk ha

theorem mem_keys_of_get {κ β : Type} [DecidableEq κ] (m : JsMap κ β) (k : κ) (v : β)
    (h : JsMap.get m k = some v) : k ∈ JsMap.keys m := by
  by_contra hk
  rw [JsMap.get_eq_none_of_not_mem m k hk] at h
  exact Option.noConfusion h

theorem eventSchedule_nodup_keys (events : List Event) :
    (JsMap.keys (setRecurringEvents events).eventSchedule).Nodup := by
  induction events using List.reverseRecOn with
  | nil => simp [setRecurringEvents, JsMap.keys]
  | append_singleton es e ih =>
    rw [setRecurringEvents_concat]
    exact nodup_keys_set _ _ _ ih

theorem getLast?_filter_eq_some_iff {α : Type} (p : α → Bool) (l : List α) (e : α) :
    (l.filter p).getLast? = some e
      ↔ ∃ pre post, l = pre ++ e :: post ∧ p e = true ∧ ∀ x ∈ post, p x = false := by
  constructor
  · intro h
    induction l using List.reverseRecOn with
    | nil => simp at h
    | append_singleton l0 x ih =>
      rw [List.filter_append] at h
      by_cases hx : p x = true
      · have hfx : List.filter p [x] = [x] := by simp [hx]
        rw [hfx, List.getLast?_concat] at h
        have hxe : x = e := Option.some.inj h
        subst hxe
        exact ⟨l0, [], rfl, hx, by simp⟩
      · have hfx : List.filter p [x] = [] := by simp [hx]
        rw [hfx, List.append_nil] at h
        obtain ⟨pre, post, hl, hpe, hpost⟩ := ih h
        refine ⟨pre, post ++ [x], ?_, hpe, ?_⟩
        · rw [hl]
          simp
        · intro y hy
          rcases List.mem_append.mp hy with hy | hy
          · exact hpost y hy
          · rw [List.mem_singleton] at hy
            subst hy
            simpa using hx
  · rintro ⟨pre, post, hl, hpe, hpost⟩
    have hnil : post.filter p = [] := by
      rw [List.filter_eq_nil_iff]
      intro x hx
      simp [hpost x hx]
    rw [hl, List.filter_append, List.filter_cons_of_pos hpe, hnil]
    simp

/-- C13: the schedule index built by `setRecurringEvents` maps a calendar date to the
last event, in input order, that starts on that date; it has no entry for a date exactly
when no event starts on it; and it holds at most one entry per date. -/
theorem index_last_write_wins (events : List Event) (d : Int) :
    (∀ e, JsMap.get (setRecurringEvents events).eventSchedule d = some e
      ↔ ∃ pre post, events = pre ++ e :: post ∧ formatYMD e.starts_at = d
          ∧ ∀ x ∈ post, formatYMD x.starts_at ≠ d)
    ∧ (JsMap.get (setRecurringEvents events).eventSchedule d = none
      ↔ ∀ e ∈ events, formatYMD e.starts_at ≠ d)
    ∧ (JsMap.keys (setRecurringEvents events).eventSchedule).Nodup := by
  refine ⟨?_, ?_, eventSchedule_nodup_keys events⟩
  · intro e
    rw [eventSchedule_get, getLast?_filter_eq_some_iff]
    constructor
    · rintro ⟨pre, post, hl, hpe, hpost⟩
      refine ⟨pre, post, hl, by simpa using hpe, ?_⟩
      intro x hx
      simpa using hpost x hx
    · rintro ⟨pre, post, hl, hpe, hpost⟩
      refine ⟨pre, post, hl, by simpa using hpe, ?_⟩
      intro x hx
      simpa using hpost x hx
  · rw [eventSchedule_get, List.getLast?_eq_none_iff, List.filter_eq_nil_iff]
    constructor
    · intro h e he
      simpa using h e he
    · intro h e he
      simpa using h e he

/-- C20: every anchor date of the list built by `setRecurringEvents` is a key of the
index built by the same call and has a stored event, so `getRecurringEvent` on these two
never throws, whatever the target date. -/
theorem anchors_are_index_keys (events : List Event) :
    (∀ a ∈ (setRecurringEvents events).recurringEvents,
      a ∈ JsMap.keys (setRecurringEvents events).eventSchedule
        ∧ ∃ e, JsMap.get (setRecurringEvents events).eventSchedule a = some e)
    ∧ ∀ d, ∃ r, getRecurringEvent d (setRecurringEvents events).recurringEvents
        (setRecurringEvents events).eventSchedule = some r := by
  constructor
  · intro a ha
    obtain ⟨e, he⟩ := recurringEvents_have_entries events a ha
    exact ⟨mem_keys_of_get _ a e he, e, he⟩
  · intro d
    exact ⟨_, getRecurringEvent_eq d _ _ (recurringEvents_have_entries events)⟩

/-! ## Appointments off the grid and appointments with an empty window -/

theorem formatHmm_minuteOfDay (x y : Int) (h : formatHmm x = formatHmm y) :
    minuteOfDay x = minuteOfDay y := by
  rw [formatHmm_eq_labelOfMinute, formatHmm_eq_labelOfMinute] at h
  have hm := labelOfMinute_inj _ _ (by omega) (by omega) h
  unfold minuteOfDay
  omega

theorem minuteOfDay_step (s : Int) (k : Nat) :
    minuteOfDay (s + 1800000 * (k : Int)) % 30 = minuteOfDay s % 30 := by
  unfold minuteOfDay
  omega

theorem mem_grid (s e : Int) (slot : String) :
    slot ∈ grid s e ↔ ∃ k : Nat, k < slotCount s e ∧ slot = formatHmm (s + 1800000 * (k : Int)) := by
  unfold grid
  simp only [List.mem_map, List.mem_range]
  constructor
  · rintro ⟨k, hk, rfl⟩
    exact ⟨k, hk, rfl⟩
  · rintro ⟨k, hk, rfl⟩
    exact ⟨k, hk, rfl⟩

theorem getAvailableSlots_empty_appointment (inputDate : Int) (eventSchedule : JsMap Int Event)
    (recurringEvent appointment : Event)
    (hget : JsMap.get eventSchedule inputDate = some appointment)
    (hkind : appointment.kind = "appointment")
    (hwin : ¬ appointment.starts_at < appointment.ends_at) :
    getAvailableSlots inputDate eventSchedule recurringEvent = [] := by
  unfold getAvailableSlots
  simp only [hget]
  rw [overlay_appointment appointment hkind, if_neg hwin]

/-- C14: an appointment on the target date with a non-empty window whose starting minute
of the day is not congruent modulo 30 to the one of the governing opening removes no slot:
`getAvailableSlots` returns the grid of the opening. -/
theorem misaligned_appointment_removes_nothing (inputDate : Int)
    (eventSchedule : JsMap Int Event) (recurringEvent appointment : Event)
    (hget : JsMap.get eventSchedule inputDate = some appointment)
    (hkind : appointment.kind = "appointment")
    (hwin : appointment.starts_at < appointment.ends_at)
    (hmis : minuteOfDay appointment.starts_at % 30 ≠ minuteOfDay recurringEvent.starts_at % 30) :
    getAvailableSlots inputDate eventSchedule recurringEvent
      = grid recurringEvent.starts_at recurringEvent.ends_at := by
  unfold getAvailableSlots
  simp only [hget]
  rw [overlay_appointment appointment hkind, if_pos hwin, windowSlots_eq_grid,
    List.filter_eq_self]
  intro slot hslot
  simp only [decide_eq_true_eq]
  intro hmem
  obtain ⟨k, _, hk⟩ := (mem_grid _ _ slot).mp hslot
  obtain ⟨j, _, hj⟩ := (mem_grid _ _ slot).mp hmem
  have hmin := formatHmm_minuteOfDay _ _ (hk.symm.trans hj)
  have h1 := minuteOfDay_step recurringEvent.starts_at k
  have h2 := minuteOfDay_step appointment.starts_at j
  rw [hmin] at h1
  exact hmis (h2.symm.trans h1)

/-- Witness of C14: an opening 9:00-11:00 and an appointment 10:15-10:45 on the target
date; the four slots stay. -/
theorem misaligned_appointment_removes_nothing_witness :
    getAvailableSlots 16293 (setRecurringEvents [weeklyOpening, offGridAppointment]).eventSchedule
        weeklyOpening
      = grid weeklyOpening.starts_at weeklyOpening.ends_at
    ∧ grid weeklyOpening.starts_at weeklyOpening.ends_at = ["9:00", "9:30", "10:00", "10:30"] :=
  ⟨misaligned_appointment_removes_nothing 16293
    (setRecurringEvents [weeklyOpening, offGridAppointment]).eventSchedule weeklyOpening
    offGridAppointment (by decide) (by decide) (by decide) (by decide), by decide⟩

/-- C15 fails on the code: with a weekly opening on Monday 9:00-11:00 and an appointment
with the empty window 10:00-10:00 on the following Monday, `getAvailableSlots` returns no
slot for that Monday instead of the four slots of the opening, because the variable
`filteredSlots` it returns is never assigned when the appointment loop runs zero times. -/
theorem empty_appointment_clears_slots :
    fetchEvents [weeklyOpening, emptyAppointment] monday = [weeklyOpening, emptyAppointment]
    ∧ emptyAppointment.kind = "appointment"
    ∧ emptyAppointment.ends_at ≤ emptyAppointment.starts_at
    ∧ JsMap.get (setRecurringEvents [weeklyOpening, emptyAppointment]).eventSchedule 16293
        = some emptyAppointment
    ∧ getRecurringEvent 16293
        (setRecurringEvents [weeklyOpening, emptyAppointment]).recurringEvents
        (setRecurringEvents [weeklyOpening, emptyAppointment]).eventSchedule
        = some (some weeklyOpening)
    ∧ grid weeklyOpening.starts_at weeklyOpening.ends_at = ["9:00", "9:30", "10:00", "10:30"]
    ∧ getAvailableSlots 16293
        (setRecurringEvents [weeklyOpening, emptyAppointment]).eventSchedule weeklyOpening = []
    ∧ (getAvailabilities [weeklyOpening, emptyAppointment] monday 8).bind
        (fun result => result[7]?) = some { date := some 16293, slots := [] } := by
  decide

/-! ## What the resolver returns -/

theorem resolve_cases (d : Int) (anchors : List Int) (eventSchedule : JsMap Int Event)
    (r : Event) (h : resolve d anchors eventSchedule = some r) :
    (JsMap.get eventSchedule d = some r ∧ r.kind = "opening")
      ∨ ((∀ ev, JsMap.get eventSchedule d = some ev → ev.kind ≠ "opening")
        ∧ ∃ a ∈ anchors, candidateAt d eventSchedule a = some r) := by
  unfold resolve at h
  cases hg : JsMap.get eventSchedule d with
  | none =>
    rw [hg] at h
    exact Or.inr ⟨fun ev hev => Option.noConfusion hev, lastCandidate_mem d _ _ r h⟩
  | some ev =>
    rw [hg] at h
    by_cases hk : ev.kind = "opening"
    · simp only [if_pos hk, Option.some.injEq] at h
      subst h
      exact Or.inl ⟨rfl, hk⟩
    · simp only [if_neg hk] at h
      refine Or.inr ⟨?_, lastCandidate_mem d _ _ r h⟩
      intro ev2 hev2
      rw [Option.some.inj hev2] at hk
      exact hk

theorem daySlots_sublist_resolved (events : List Event) (d : Int) :
    (∃ r, resolve d (setRecurringEvents events).recurringEvents
          (setRecurringEvents events).eventSchedule = some r
        ∧ List.Sublist (daySlots (setRecurringEvents events) d) (grid r.starts_at r.ends_at))
      ∨ (resolve d (setRecurringEvents events).recurringEvents
          (setRecurringEvents events).eventSchedule = none
        ∧ daySlots (setRecurringEvents events) d = []) := by
  cases hr : resolve d (setRecurringEvents events).recurringEvents
      (setRecurringEvents events).eventSchedule with
  | none =>
    refine Or.inr ⟨rfl, ?_⟩
    simp only [daySlots, hr]
  | some r =>
    refine Or.inl ⟨r, rfl, ?_⟩
    simp only [daySlots, hr, getAvailableSlots, windowSlots_eq_grid]
    cases hg : JsMap.get (setRecurringEvents events).eventSchedule d with
    | none => exact List.Sublist.refl _
    | some ev =>
      simp only []
      by_cases hk : ev.kind = "opening"
      · have hrev : r = ev := by
          simp only [resolve, hg, if_pos hk, Option.some.injEq] at hr
          exact hr.symm
        rw [overlay_opening ev hk, hrev]
      · by_cases hk2 : ev.kind = "appointment"
        · rw [overlay_appointment ev hk2]
          by_cases hw : ev.starts_at < ev.ends_at
          · rw [if_pos hw]
            exact List.filter_sublist _
          · rw [if_neg hw]
            exact List.nil_sublist _
        · rw [overlay_inert ev hk hk2]
          exact List.nil_sublist _

/-- C16: the slots of every requested day `d` form a subsequence of the grid of the
opening that `getRecurringEvent` returns for that day, and there is no slot when it
returns the empty object; when the key of the day is the text `Invalid date`, for which
the empty object is returned, the availability stored under it has no slot. -/
theorem slots_within_governing_grid (events : List Event) (date numberOfDays : Int) (i : Nat)
    (hi : (i : Int) < numberOfDays) :
    ∃ result, getAvailabilities events date numberOfDays = some result ∧
      (∀ d, tempDateOf date (i : Int) = some d →
        ∃ av, result[i]? = some av ∧ av.date = some d ∧
          ((∃ r, getRecurringEvent d (setRecurringEvents events).recurringEvents
                (setRecurringEvents events).eventSchedule = some (some r)
              ∧ List.Sublist av.slots (grid r.starts_at r.ends_at))
            ∨ (getRecurringEvent d (setRecurringEvents events).recurringEvents
                (setRecurringEvents events).eventSchedule = some none
              ∧ av.slots = []))) ∧
      (tempDateOf date (i : Int) = none → ∃ av ∈ result, av.date = none ∧ av.slots = []) := by
  refine ⟨_, getAvailabilities_eq events date numberOfDays, ?_, ?_⟩
  · intro d hday
    obtain ⟨result, hres, hget2⟩ :=
      getAvailabilities_getElem? events date numberOfDays i hi d hday
    rw [getAvailabilities_eq] at hres
    rw [Option.some.inj hres]
    refine ⟨_, hget2, rfl, ?_⟩
    simp only [getRecurringEvent_setRecurringEvents]
    rcases daySlots_sublist_resolved events d with ⟨r, hr, hs⟩ | ⟨hr, hs⟩
    · exact Or.inl ⟨r, by rw [hr], hs⟩
    · exact Or.inr ⟨by rw [hr], hs⟩
  · intro hday
    obtain ⟨result, hres, hmem⟩ :=
      getAvailabilities_mem_invalid events date numberOfDays i hi hday
    rw [getAvailabilities_eq] at hres
    rw [Option.some.inj hres]
    exact ⟨invalidAvailability, hmem, rfl, rfl⟩

/-- Witness of C16: the Monday one week after a weekly opening 9:00-11:00, with an
appointment 10:00-10:30 that day. -/
theorem slots_within_governing_grid_witness :
    ∃ result, getAvailabilities [weeklyOpening, nextAppointment] monday 8 = some result ∧
      (∀ d, tempDateOf monday ((7 : Nat) : Int) = some d →
        ∃ av, result[7]? = some av ∧ av.date = some d ∧
          ((∃ r, getRecurringEvent d
                (setRecurringEvents [weeklyOpening, nextAppointment]).recurringEvents
                (setRecurringEvents [weeklyOpening, nextAppointment]).eventSchedule
                  = some (some r)
              ∧ List.Sublist av.slots (grid r.starts_at r.ends_at))
            ∨ (getRecurringEvent d
                (setRecurringEvents [weeklyOpening, nextAppointment]).recurringEvents
                (setRecurringEvents [weeklyOpening, nextAppointment]).eventSchedule
                  = some none
              ∧ av.slots = []))) ∧
      (tempDateOf monday ((7 : Nat) : Int) = none →
        ∃ av ∈ result, av.date = none ∧ av.slots = []) :=
  slots_within_governing_grid [weeklyOpening, nextAppointment] monday 8 7 (by decide)

/-- C17: an event that `getRecurringEvent` returns, on the index and anchors built from
one event list, is a fetched event of kind opening that starts on a calendar date on or
before the target date, a whole number of weeks before it. -/
theorem resolved_event_is_aligned_opening (events : List Event) (d : Int) (r : Event)
    (h : getRecurringEvent d (setRecurringEvents events).recurringEvents
      (setRecurringEvents events).eventSchedule = some (some r)) :
    r ∈ events ∧ r.kind = "opening" ∧ formatYMD r.starts_at ≤ d
      ∧ (d - formatYMD r.starts_at) % 7 = 0
      ∧ ∃ k : Nat, d = formatYMD r.starts_at + 7 * (k : Int) := by
  rw [getRecurringEvent_setRecurringEvents] at h
  have hr := Option.some.inj h
  have key : r ∈ events ∧ r.kind = "opening" ∧ formatYMD r.starts_at ≤ d
      ∧ (d - formatYMD r.starts_at) % 7 = 0 := by
    rcases resolve_cases d _ _ r hr with ⟨hg, hk⟩ | ⟨_, a, _, hc⟩
    · obtain ⟨hm, hd⟩ := eventSchedule_get_mem events d r hg
      refine ⟨hm, hk, le_of_eq hd, ?_⟩
      rw [hd]
      simp
    · obtain ⟨h1, h2, h3, h4⟩ := (candidateAt_eq_some d _ a r).mp hc
      obtain ⟨hm, hd⟩ := eventSchedule_get_mem events a r h3
      rw [hd]
      exact ⟨hm, h4, by omega, h2⟩
  obtain ⟨k1, k2, k3, k4⟩ := key
  refine ⟨k1, k2, k3, k4, ⟨((d - formatYMD r.starts_at) / 7).toNat, ?_⟩⟩
  omega

/-- Witness of C17: two weeks after its anchor, the weekly opening of Monday is
returned. -/
theorem resolved_event_is_aligned_opening_witness :
    weeklyOpening ∈ [weeklyOpening, nextAppointment] ∧ weeklyOpening.kind = "opening"
      ∧ formatYMD weeklyOpening.starts_at ≤ 16300
      ∧ (16300 - formatYMD weeklyOpening.starts_at) % 7 = 0
      ∧ ∃ k : Nat, (16300 : Int) = formatYMD weeklyOpening.starts_at + 7 * (k : Int) :=
  resolved_event_is_aligned_opening [weeklyOpening, nextAppointment] 16300 weeklyOpening
    (by decide)

/-- C18 fails on the code: a one-off opening 14:00-15:00 starting on the same Monday as a
weekly opening, and fetched after it, takes the index entry of the anchor date;
`getRecurringEvent` returns it for the following Monday, a date other than its own,
although it is not weekly recurring. -/
theorem one_off_opening_projected :
    fetchEvents [weeklyOpening, oneOffOpening] monday = [weeklyOpening, oneOffOpening]
    ∧ (setRecurringEvents [weeklyOpening, oneOffOpening]).recurringEvents = [16286]
    ∧ JsMap.get (setRecurringEvents [weeklyOpening, oneOffOpening]).eventSchedule 16286
        = some oneOffOpening
    ∧ getRecurringEvent 16293
        (setRecurringEvents [weeklyOpening, oneOffOpening]).recurringEvents
        (setRecurringEvents [weeklyOpening, oneOffOpening]).eventSchedule
        = some (some oneOffOpening)
    ∧ formatYMD oneOffOpening.starts_at ≠ 16293
    ∧ oneOffOpening.weekly_recurring ≠ some 1
    ∧ (getAvailabilities [weeklyOpening, oneOffOpening] monday 8).bind
        (fun result => result[7]?) = some { date := some 16293, slots := ["14:00", "14:30"] } := by
  decide

/-! ## Order of the fetched events -/

theorem getLast?_perm_of_all_eq {α : Type} (l l' : List α) (hp : List.Perm l l')
    (hall : ∀ x ∈ l, ∀ y ∈ l, x = y) : l'.getLast? = l.getLast? := by
  cases hl : l.getLast? with
  | none =>
    have hnil : l = [] := List.getLast?_eq_none_iff.mp hl
    rw [hnil] at hp
    rw [← hp.nil_eq]
    rfl
  | some x =>
    have hx : x ∈ l := List.mem_of_getLast?_eq_some hl
    cases hl2 : l'.getLast? with
    | none =>
      have hnil : l' = [] := List.getLast?_eq_none_iff.mp hl2
      rw [hnil] at hp
      rw [hp.eq_nil] at hx
      simp at hx
    | some y =>
      have hy : y ∈ l := hp.mem_iff.mpr (List.mem_of_getLast?_eq_some hl2)
      rw [hall x hx y hy]

theorem eventSchedule_get_perm (events events2 : List Event) (hperm : List.Perm events events2)
    (hdates : (events.map (fun e => formatYMD e.starts_at)).Nodup) (d : Int) :
    JsMap.get (setRecurringEvents events2).eventSchedule d
      = JsMap.get (setRecurringEvents events).eventSchedule d := by
  rw [eventSchedule_get, eventSchedule_get]
  apply getLast?_perm_of_all_eq _ _ (hperm.filter _)
  intro x hx y hy
  have hx2 := List.mem_filter.mp hx
  have hy2 := List.mem_filter.mp hy
  apply List.inj_on_of_nodup_map hdates hx2.1 hy2.1
  have h1 : formatYMD x.starts_at = d := by simpa using hx2.2
  have h2 : formatYMD y.starts_at = d := by simpa using hy2.2
  rw [h1, h2]

theorem recurringEvents_perm (events events2 : List Event) (hperm : List.Perm events events2) :
    List.Perm (setRecurringEvents events).recurringEvents
      (setRecurringEvents events2).recurringEvents := by
  rw [recurringEvents_eq, recurringEvents_eq]
  exact (hperm.filter _).map _

theorem lastCandidate_perm (events events2 : List Event) (hperm : List.Perm events events2)
    (hdates : (events.map (fun e => formatYMD e.starts_at)).Nodup)
    (hanchors : ∀ e1 ∈ events, ∀ e2 ∈ events,
      e1.kind = "opening" → e1.weekly_recurring = some 1 →
      e2.kind = "opening" → e2.weekly_recurring = some 1 →
      (formatYMD e1.starts_at - formatYMD e2.starts_at) % 7 = 0 → e1 = e2)
    (d : Int) :
    lastCandidate d (setRecurringEvents events2).eventSchedule
        (setRecurringEvents events2).recurringEvents
      = lastCandidate d (setRecurringEvents events).eventSchedule
          (setRecurringEvents events).recurringEvents := by
  rw [lastCandidate_congr d (setRecurringEvents events2).eventSchedule
    (setRecurringEvents events).eventSchedule _
    (fun a _ => eventSchedule_get_perm events events2 hperm hdates a)]
  unfold lastCandidate
  apply getLast?_perm_of_all_eq _ _
    ((recurringEvents_perm events events2 hperm).filterMap _)
  intro x hx y hy
  obtain ⟨a, ha, hca⟩ := List.mem_filterMap.mp hx
  obtain ⟨b, hb, hcb⟩ := List.mem_filterMap.mp hy
  obtain ⟨_, ha2, ha3, _⟩ := (candidateAt_eq_some d _ a x).mp hca
  obtain ⟨_, hb2, hb3, _⟩ := (candidateAt_eq_some d _ b y).mp hcb
  obtain ⟨e1, he1, hk1, hw1, hd1⟩ := (mem_recurringEvents events a).mp ha
  obtain ⟨e2, he2, hk2, hw2, hd2⟩ := (mem_recurringEvents events b).mp hb
  have hcong : (formatYMD e1.starts_at - formatYMD e2.starts_at) % 7 = 0 := by
    rw [hd1, hd2]
    omega
  have he := hanchors e1 he1 e2 he2 hk1 hw1 hk2 hw2 hcong
  have hab : a = b := by
    rw [← hd1, ← hd2, he]
  rw [hab, hb3] at ha3
  exact (Option.some.inj ha3).symm

theorem daySlots_perm (events events2 : List Event) (hperm : List.Perm events events2)
    (hdates : (events.map (fun e => formatYMD e.starts_at)).Nodup)
    (hanchors : ∀ e1 ∈ events, ∀ e2 ∈ events,
      e1.kind = "opening" → e1.weekly_recurring = some 1 →
      e2.kind = "opening" → e2.weekly_recurring = some 1 →
      (formatYMD e1.starts_at - formatYMD e2.starts_at) % 7 = 0 → e1 = e2)
    (d : Int) :
    daySlots (setRecurringEvents events2) d = daySlots (setRecurringEvents events) d := by
  simp only [daySlots, resolve, getAvailableSlots,
    eventSchedule_get_perm events events2 hperm hdates d,
    lastCandidate_perm events events2 hperm hdates hanchors d]

/-- C19: when no two fetched events start on the same calendar date and no two weekly
recurring openings have anchor dates congruent modulo 7 days, `getAvailabilities` returns
the same availabilities for every permutation of the fetched list, whatever the start
date and the number of days. -/
theorem order_independent_without_collisions (events events2 : List Event)
    (date numberOfDays : Int) (hperm : List.Perm events events2)
    (hdates : (events.map (fun e => formatYMD e.starts_at)).Nodup)
    (hanchors : ∀ e1 ∈ events, ∀ e2 ∈ events,
      e1.kind = "opening" → e1.weekly_recurring = some 1 →
      e2.kind = "opening" → e2.weekly_recurring = some 1 →
      (formatYMD e1.starts_at - formatYMD e2.starts_at) % 7 = 0 → e1 = e2) :
    getAvailabilities events2 date numberOfDays = getAvailabilities events date numberOfDays := by
  rw [getAvailabilities_eq, getAvailabilities_eq]
  congr 2
  apply List.map_congr_left
  intro j _
  simp only [dayAvailability, daySlots_perm events events2 hperm hdates hanchors]

/-- Witness of C19: a weekly opening and an appointment one week later, fetched in either
order. -/
theorem order_independent_without_collisions_witness :
    getAvailabilities [nextAppointment, weeklyOpening] monday 8
      = getAvailabilities [weeklyOpening, nextAppointment] monday 8 :=
  order_independent_without_collisions [weeklyOpening, nextAppointment]
    [nextAppointment, weeklyOpening] monday 8 (List.Perm.swap nextAppointment weeklyOpening [])
    (by decide) (by decide)

end Availabilities
